import Mathlib

/-!
Shallow embedding of the reader stack and HTTP parsing layer of the `pyx`
package (`pyx/io.py`, `pyx/http.py`), together with proofs of the spec
claims about them.

Byte strings are modelled as `List Nat` (one `Nat` per byte).  The readers
(`BufferedReader`, `LengthReader`, `BoundaryReader`) are modelled as pure
state-passing functions; the asynchronous inner stream (`asyncio.StreamReader`
over an already-received, finite byte sequence) is modelled by a plain byte
list with the standard deterministic semantics: `read n` returns the first
`min n avail` bytes, `readline` returns up to and including the first `\n`,
`readexactly n` fails (consuming everything) when fewer than `n` bytes remain.

Python's `_buffer` list appends pushed chunks at the END and `pop()`s from the
end; the Lean model stores the buffer with the MOST RECENTLY pushed chunk at
the HEAD, so Python's `reverse()+join` flush is `List.flatten` here.
-/

namespace Pyx

abbrev Bytes := List Nat

/-- Prefix of `s` up to and including the first `\n` (byte 10), or all of `s`
when it holds no newline: the result of `StreamReader.readline` on a finished
stream `s`. -/
def takeLine : Bytes → Bytes
  | [] => []
  | c :: rest => if c = 10 then [c] else c :: takeLine rest

/-- Remainder of the stream after `takeLine`. -/
def dropLine : Bytes → Bytes
  | [] => []
  | c :: rest => if c = 10 then rest else dropLine rest

/-- Result of `StreamReader.read n` on a finished stream: everything when
`n < 0`, the first `n` bytes otherwise. -/
def streamRead (s : Bytes) (n : Int) : Bytes × Bytes :=
  if n < 0 then (s, []) else (s.take n.toNat, s.drop n.toNat)

/-- Outcome of a `readexactly`-style operation: either `n` bytes, or an
`asyncio.IncompleteReadError` carrying the partially read data and the
expected count. `st` is the post-operation reader state. -/
inductive RdRes (σ : Type) where
  | ok (data : Bytes) (st : σ)
  | err (part : Bytes) (expected : Int) (st : σ)
deriving DecidableEq

/-- Result of `StreamReader.readexactly n` on a finished stream: the internal
buffer is fully drained (and carried in the exception) when it holds fewer
than `n` bytes. -/
def streamReadexactly (s : Bytes) (n : Nat) : RdRes Bytes :=
  if n ≤ s.length then .ok (s.take n) (s.drop n) else .err s (n : Int) []

/-! ## BufferedReader (`BufferedMixin` + `BufferedReader` in pyx/io.py) -/

/-- State of a `BufferedReader`: the LIFO pushback buffer (`_buffer`, most
recently pushed chunk first) and the not-yet-consumed part of the inner
stream. -/
structure BufReader where
  buffer : List Bytes
  stream : Bytes
deriving DecidableEq

/-- Total byte sequence still obtainable from the reader, pushback first. -/
def bufContent (st : BufReader) : Bytes := st.buffer.flatten ++ st.stream

/-- Number of bytes still obtainable. -/
def bufAvail (st : BufReader) : Nat := (bufContent st).length

/-- `BufferedMixin.put`: push a chunk onto the pushback stack. -/
def bufPut (st : BufReader) (data : Bytes) : BufReader :=
  { st with buffer := data :: st.buffer }

/-- Loop body of `BufferedMixin.read_from_buffer` for `n >= 0`: pop chunks
(most recent first) until `n` bytes are gathered or the buffer is empty; a
partially consumed chunk's remainder is pushed back.  Returns the gathered
bytes, the new buffer, and the still-needed count. -/
def rfbAux : List Bytes → Nat → Bytes × List Bytes × Nat
  | buf, 0 => ([], buf, 0)
  | [], n+1 => ([], [], n+1)
  | data :: rest, n+1 =>
      if data.length > n+1 then
        (data.take (n+1), data.drop (n+1) :: rest, 0)
      else
        let r := rfbAux rest (n+1 - data.length)
        (data ++ r.1, r.2.1, r.2.2)

/-- `BufferedMixin.read_from_buffer`: for `n < 0` flush the whole buffer and
pass the negative count through; otherwise run the chunk-popping loop. -/
def read_from_buffer (st : BufReader) (n : Int) : Bytes × List Bytes × Int :=
  if n < 0 then (st.buffer.flatten, [], n)
  else
    let r := rfbAux st.buffer n.toNat
    (r.1, r.2.1, (r.2.2 : Int))

/-- `BufferedReader.read`: drain the pushback, then read the remainder from
the inner stream. -/
def bufRead (st : BufReader) (n : Int) : Bytes × BufReader :=
  let r := read_from_buffer st n
  if r.2.2 ≠ 0 then
    let sr := streamRead st.stream r.2.2
    (r.1 ++ sr.1, ⟨r.2.1, sr.2⟩)
  else
    (r.1, ⟨r.2.1, st.stream⟩)

/-- `BufferedReader.readline`: flush the pushback; if it holds a newline,
return the first line and re-push the tail, otherwise append one inner
`readline`. -/
def bufReadline (st : BufReader) : Bytes × BufReader :=
  let buffered := st.buffer.flatten
  if 10 ∈ buffered then
    let line := takeLine buffered
    (line, ⟨[buffered.drop line.length], st.stream⟩)
  else
    let line := takeLine st.stream
    (buffered ++ line, ⟨[], st.stream.drop line.length⟩)

/-- `BufferedReader.readexactly`: `n < 0` yields empty at once; otherwise
drain the pushback and ask the inner stream for the exact remainder (whose
incomplete-read failure propagates, carrying only the inner partial data). -/
def bufReadexactly (st : BufReader) (n : Int) : RdRes BufReader :=
  if n < 0 then .ok [] st
  else
    let r := read_from_buffer st n
    if r.2.2 ≠ 0 then
      match streamReadexactly st.stream r.2.2.toNat with
      | .ok d s' => .ok (r.1 ++ d) ⟨r.2.1, s'⟩
      | .err p e s' => .err p e ⟨r.2.1, s'⟩
    else .ok r.1 ⟨r.2.1, st.stream⟩

/-! ## LengthReader (pyx/io.py) -/

/-- State of a `LengthReader`: the inner (buffered) reader and the
`_remaining` byte budget.  (`_length` is stored by `__init__` but never read
again, so it is not modelled.)  Every operation of the source decrements
`_remaining` by at most its current value, so it stays non-negative and a
`Nat` is faithful. -/
structure LenReader where
  reader : BufReader
  remaining : Nat
deriving DecidableEq

/-- `LengthReader.put`: push onto the inner reader and grow the budget. -/
def lenPut (st : LenReader) (data : Bytes) : LenReader :=
  ⟨bufPut st.reader data, st.remaining + data.length⟩

/-- `LengthReader.readline`: read one inner line; when it overflows the
budget, push the overflow back and zero the budget. -/
def lenReadline (st : LenReader) : Bytes × LenReader :=
  if 0 < st.remaining then
    let r := bufReadline st.reader
    if r.1.length > st.remaining then
      (r.1.take st.remaining, ⟨bufPut r.2 (r.1.drop st.remaining), 0⟩)
    else
      (r.1, ⟨r.2, st.remaining - r.1.length⟩)
  else ([], st)

/-- `LengthReader.read`: read at most `min remaining n` bytes (or `remaining`
when `n < 0`) and decrement the budget by the bytes actually delivered. -/
def lenRead (st : LenReader) (n : Int) : Bytes × LenReader :=
  if 0 < st.remaining then
    if n < 0 then
      let r := bufRead st.reader (st.remaining : Int)
      (r.1, ⟨r.2, st.remaining - r.1.length⟩)
    else
      let r := bufRead st.reader (min (st.remaining : Int) n)
      (r.1, ⟨r.2, st.remaining - r.1.length⟩)
  else ([], st)

/-- `LengthReader.readexactly`: negative `n` yields empty; a request beyond
the budget drains `remaining` bytes from the inner reader and fails (the
`raise` skips the decrement, so `remaining` is left unchanged); an inner
incomplete-read also propagates without touching `remaining`. -/
def lenReadexactly (st : LenReader) (n : Int) : RdRes LenReader :=
  if n < 0 then .ok [] st
  else if 0 < st.remaining then
    if (st.remaining : Int) < n then
      match bufReadexactly st.reader (st.remaining : Int) with
      | .ok d r' => .err d n ⟨r', st.remaining⟩
      | .err p e r' => .err p e ⟨r', st.remaining⟩
    else
      match bufReadexactly st.reader n with
      | .ok d r' => .ok d ⟨r', st.remaining - d.length⟩
      | .err p e r' => .err p e ⟨r', st.remaining⟩
  else .err [] n st

/-- Number of bytes `LengthReader.read` asks of the inner reader:
`remaining` when `n` is negative or exceeds the budget, else `n`. -/
def lenAmount (st : LenReader) (n : Int) : Nat :=
  if n < 0 ∨ (st.remaining : Int) ≤ n then st.remaining else n.toNat

/-! ## Operation sequences on a LengthReader (for the budget claims) -/

/-- One data-requesting operation on a `LengthReader`. -/
inductive LOp where
  | read (n : Int)
  | line
deriving DecidableEq

/-- Run one operation. -/
def lenRunOp (st : LenReader) : LOp → Bytes × LenReader
  | .read n => lenRead st n
  | .line => lenReadline st

/-- An operation actually requests data (`read 0` trivially returns empty and
is excluded by the "read until empty" protocol). -/
def LOp.requests : LOp → Bool
  | .read n => n ≠ 0
  | .line => true

/-- Run a sequence of operations, collecting each call's returned bytes. -/
def lenRun (st : LenReader) : List LOp → List Bytes × LenReader
  | [] => ([], st)
  | op :: ops =>
      let r := lenRunOp st op
      let rest := lenRun r.2 ops
      (r.1 :: rest.1, rest.2)

/-- Pushes `x1, …, xk` in order (`foldl`), as `put(x1); …; put(xk)`. -/
def bufPuts (st : BufReader) (xs : List Bytes) : BufReader :=
  xs.foldl bufPut st

/-! ## BoundaryReader (pyx/io.py) -/

/-- First index (relative to the head of `s`) at which `needle` occurs as a
contiguous sub-sequence of `s`; `none` if it never occurs. -/
def findSubAux (needle : Bytes) : Bytes → Option Nat
  | [] => if needle = [] then some 0 else none
  | c :: rest =>
      if needle = (c :: rest).take needle.length then some 0
      else (findSubAux needle rest).map (· + 1)

/-- Python `buf.find(needle, start)` (as an `Option` instead of `-1`). -/
def findSub (needle hay : Bytes) (start : Nat) : Option Nat :=
  (findSubAux needle (hay.drop start)).map (· + start)

/-- `needle` occurs in `hay` at index `i` (fully contained). -/
def occursAt (needle hay : Bytes) (i : Nat) : Prop :=
  needle = (hay.drop i).take needle.length

instance occursAt_decidable (needle hay : Bytes) (i : Nat) :
    Decidable (occursAt needle hay i) :=
  inferInstanceAs (Decidable (needle = (hay.drop i).take needle.length))

/-- State of a `BoundaryReader`: inner buffered reader, full marker
(`\r\n--` ++ user boundary, prepended at construction) and the
`_hit_boundary` flag. -/
structure BndReader where
  inner : BufReader
  boundary : Bytes
  hit : Bool
deriving DecidableEq

/-- `BoundaryReader.__init__` (the `assert` requires a non-empty user
boundary; claims carry that as a hypothesis). -/
def mkBoundaryReader (inner : BufReader) (b : Bytes) : BndReader :=
  ⟨inner, [13, 10, 45, 45] ++ b, false⟩

/-- `BoundaryReader.put`: delegates to the inner reader (no budget). -/
def bndPut (st : BndReader) (data : Bytes) : BndReader :=
  { st with inner := bufPut st.inner data }

/-- `BoundaryReader._strip_boundary`: when fewer than 4 bytes follow the
marker in `buf`, read 4 more (the possible `--\r\n` trailer); classify the 4
bytes after the marker; push everything after the boundary (and its trailer)
back; return the `has_trailer` flag and the bytes before the marker. -/
def stripBoundary (bd : Bytes) (buf0 : Bytes) (bdIdx : Nat) (inner : BufReader) :
    Bool × Bytes × BufReader :=
  let pr :=
    if (bdIdx : Int) + bd.length > (buf0.length : Int) - 4 then
      let p := bufRead inner 4
      (buf0 ++ p.1, p.2)
    else (buf0, inner)
  let buf := pr.1
  let sidx := bdIdx + bd.length
  if (buf.drop sidx).take 4 = [45, 45, 13, 10] then
    (true, buf.take bdIdx, bufPut pr.2 (buf.drop (sidx + 4)))
  else if (buf.drop sidx).take 2 = [13, 10] then
    (false, buf.take bdIdx, bufPut pr.2 (buf.drop (sidx + 2)))
  else
    (false, buf.take bdIdx, bufPut pr.2 (buf.drop sidx))

/-- `BoundaryReader._read_next_block`. -/
def readNextBlock (bd : Bytes) (n : Int) (buf : Bytes) (inner : BufReader) :
    Bytes × BufReader :=
  let toRead : Int :=
    if n < 0 then 8192
    else
      let remaining : Int := max (n - buf.length) 0
      if remaining < 2 * bd.length then remaining + bd.length else remaining
  bufRead inner toRead

/-- Main loop of `BoundaryReader.read`, fuel-indexed (the fuel passed by
`bndRead` provably dominates the iteration count: every continuing iteration
consumed at least one inner byte to obtain its non-empty `data`).  On normal
exit the pending `data` is appended, mirroring the source's trailing
`if not self._hit_boundary: buf.extend(data)`. -/
def bndReadLoop (bd : Bytes) (n : Int) :
    Nat → Bytes → Bytes → BufReader → Bool × Bytes × BufReader
  | 0, buf, data, inner => (false, buf ++ data, inner)
  | fuel+1, buf, data, inner =>
      if 0 < data.length ∧ (n < 0 ∨ (buf.length : Int) < n + bd.length) then
        let buf' := buf ++ data
        let sidx := buf'.length - data.length - (bd.length - 1)
        match findSub bd buf' sidx with
        | some bdIdx =>
            let r := stripBoundary bd buf' bdIdx inner
            (true, r.2.1, r.2.2)
        | none =>
            let p := readNextBlock bd n buf' inner
            bndReadLoop bd n fuel buf' p.1 p.2
      else (false, buf ++ data, inner)

/-- `BoundaryReader.read`. -/
def bndRead (st : BndReader) (n : Int) : Bytes × BndReader :=
  if st.hit then ([], st)
  else
    let d0 := readNextBlock st.boundary n [] st.inner
    let r := bndReadLoop st.boundary n (bufAvail d0.2 + 1) [] d0.1 d0.2
    if 0 ≤ n ∧ n < (r.2.1.length : Int) then
      (r.2.1.take n.toNat, ⟨bufPut r.2.2 (r.2.1.drop n.toNat), st.boundary, r.1⟩)
    else
      (r.2.1, ⟨r.2.2, st.boundary, r.1⟩)

/-- `BoundaryReader.readline`: read two inner lines; if the concatenation
holds the marker, strip it (the source passes the immutable `bytes`
concatenation to `_strip_boundary`, whose `buf.extend(padding)` raises
`AttributeError` whenever the padding read is needed — this model gives the
intended semantics of that branch); otherwise push the second line back and
return the first. -/
def bndReadline (st : BndReader) : Bytes × BndReader :=
  if st.hit then ([], st)
  else
    let r1 := bufReadline st.inner
    let r2 := bufReadline r1.2
    let buf := r1.1 ++ r2.1
    match findSub st.boundary buf 0 with
    | some bdIdx =>
        let s := stripBoundary st.boundary buf bdIdx r2.2
        (s.2.1, ⟨s.2.2, st.boundary, true⟩)
    | none => (r1.1, ⟨bufPut r2.2 r2.1, st.boundary, st.hit⟩)

/-- Loop of `BoundaryReader.readexactly` (fuel = still-needed count, which
dominates the iteration count since every continuing iteration returned at
least one byte). -/
def bndRxLoop (ntotal : Int) : Nat → Nat → List Bytes → BndReader → RdRes BndReader
  | _, 0, acc, st => .ok acc.reverse.flatten st
  | 0, _+1, acc, st => .err acc.reverse.flatten ntotal st
  | fuel+1, need+1, acc, st =>
      let r := bndRead st ((need+1 : Nat) : Int)
      if r.1.length = 0 then .err acc.reverse.flatten ntotal r.2
      else bndRxLoop ntotal fuel (need+1 - r.1.length) (r.1 :: acc) r.2

/-- `BoundaryReader.readexactly`. -/
def bndReadexactly (st : BndReader) (n : Int) : RdRes BndReader :=
  if n < 0 then .ok [] st
  else bndRxLoop n n.toNat n.toNat [] st

/-- Length of the boundary trailer at the head of `T`: 4 for the final
`--\r\n`, 2 for a bare `\r\n`, else 0. -/
def trailerLen (T : Bytes) : Nat :=
  if T.take 4 = [45, 45, 13, 10] then 4
  else if T.take 2 = [13, 10] then 2
  else 0

/-- Whether `T` starts with the final-boundary trailer `--\r\n`. -/
def hasTrailer (T : Bytes) : Bool :=
  if T.take 4 = [45, 45, 13, 10] then true else false

/-- `T` with a leading `--\r\n` or `\r\n` stripped, if present. -/
def stripTrailer (T : Bytes) : Bytes := T.drop (trailerLen T)

/-- Run a sequence of `read(n)` calls on a `BoundaryReader`, collecting each
call's returned bytes. -/
def bndRun (st : BndReader) : List Int → List Bytes × BndReader
  | [] => ([], st)
  | n :: ns =>
      let r := bndRead st n
      let rest := bndRun r.2 ns
      (r.1 :: rest.1, rest.2)

/-- State invariant of a `BoundaryReader` whose inner stream originally held
`A ++ M ++ T` (`M` the marker): either the marker was not hit yet and `done`
is a prefix of `A` with the rest still pending, or the marker was hit, all of
`A` was emitted and the trailer was stripped from `T`. -/
def bndInv (M A T : Bytes) (st : BndReader) (done : Bytes) : Prop :=
  st.boundary = M ∧
  ((st.hit = false ∧ ∃ dA, dA ≤ A.length ∧ done = A.take dA ∧
      bufContent st.inner = A.drop dA ++ M ++ T) ∨
   (st.hit = true ∧ done = A ∧ bufContent st.inner = stripTrailer T))

/-! ### HTTP layer: strings and parsing (`src/pyx/http.py`) -/

/-- Python strings as lists of characters. -/
abbrev Str := List Char

/-- The whitespace characters stripped by Python's `str.strip()`. -/
def pySpace (c : Char) : Bool :=
  c = ' ' || c = '\t' || c = '\n' || c = '\r' || c = '\x0b' || c = '\x0c'

/-- Python `str.strip()`. -/
def pyStrip (s : Str) : Str :=
  ((s.dropWhile pySpace).reverse.dropWhile pySpace).reverse

/-- Python `str.split(sep)` with a one-character separator: keeps empty
pieces, and the split of the empty string is `[""]`. -/
def splitOnChar (sep : Char) : Str → List Str
  | [] => [[]]
  | c :: rest =>
      if c = sep then [] :: splitOnChar sep rest
      else
        match splitOnChar sep rest with
        | [] => [[c]]
        | s :: ss => (c :: s) :: ss

/-- Python `str.find(c)` for a one-character needle, as an `Option`
(`none` for Python's `-1`). -/
def charIndex : Str → Char → Option Nat
  | [], _ => none
  | a :: rest, c => if a = c then some 0 else (charIndex rest c).map (· + 1)

/-- Python `str.upper()` (the HTTP tokens involved are ASCII). -/
def upperStr (s : Str) : Str := s.map Char.toUpper

/-- Value of an ASCII decimal digit. -/
def digitVal (c : Char) : Option Nat :=
  if '0' ≤ c ∧ c ≤ '9' then some (c.toNat - 48) else none

def digitsValAux : Str → Nat → Option Nat
  | [], acc => some acc
  | c :: rest, acc =>
      match digitVal c with
      | some d => digitsValAux rest (acc * 10 + d)
      | none => none

/-- Python `int(s, 10)` restricted to an optional sign followed by one or
more digits (`none` models the uncaught `ValueError`; the underscore and
whitespace forms Python also accepts do not occur in the claims). -/
def pyInt (s : Str) : Option Int :=
  match s with
  | [] => none
  | '-' :: rest =>
      if rest = [] then none else (digitsValAux rest 0).map (fun v => -(v : Int))
  | '+' :: rest =>
      if rest = [] then none else (digitsValAux rest 0).map (fun v => (v : Int))
  | _ => (digitsValAux s 0).map (fun v => (v : Int))

/-- Outcome of `HttpRequest._parse_req_line`: the parsed fields, the
`BadHttpRequestError` raised for a malformed line, or the uncaught
`ValueError` from `int()` on a non-numeric version. -/
inductive ReqLine
  | ok (method : Str) (path : Str) (query : Option Str) (protocol : Str)
      (version : Int × Int)
  | badRequest
  | valueError
  deriving DecidableEq

/-- The path part of token 2 of a request line: everything before the
first `?`, or the whole token when there is none. -/
def reqPath (c1 : Str) : Str :=
  match charIndex c1 '?' with
  | none => c1
  | some qi => c1.take qi

/-- The query part of token 2 of a request line: everything after the
first `?`, or `None` when there is none. -/
def reqQuery (c1 : Str) : Option Str :=
  match charIndex c1 '?' with
  | none => none
  | some qi => some (c1.drop (qi + 1))

/-- `HttpRequest._parse_req_line`. -/
def parseReqLine (line : Str) : ReqLine :=
  if pyStrip line = [] then .badRequest
  else
    match splitOnChar ' ' (pyStrip line) with
    | [c0, c1, c2] =>
        (match charIndex c2 '/' with
        | none => .badRequest
        | some vi =>
            match charIndex (c2.drop (vi + 1)) '.' with
            | none =>
                match pyInt (c2.drop (vi + 1)) with
                | some mj =>
                    .ok (upperStr c0) (reqPath c1) (reqQuery c1)
                      (upperStr (c2.take vi)) (mj, 0)
                | none => .valueError
            | some di =>
                match pyInt ((c2.drop (vi + 1)).take di),
                      pyInt ((c2.drop (vi + 1)).drop (di + 1)) with
                | some mj, some mi =>
                    .ok (upperStr c0) (reqPath c1) (reqQuery c1)
                      (upperStr (c2.take vi)) (mj, mi)
                | _, _ => .valueError)
    | _ => .badRequest

/-- The `HttpHeader` named tuple. -/
structure HttpHeaderKV where
  key : Str
  value : Str
  deriving DecidableEq

/-- A header line is rejected when the first `:` of the stripped line is at
index `< 1` (Python's `find` returns `-1` when absent). -/
def parse_http_header (line : Str) : Option HttpHeaderKV :=
  let s := pyStrip line
  match charIndex s ':' with
  | none => none
  | some i =>
      if i < 1 then none
      else some ⟨pyStrip (s.take i), pyStrip (s.drop (i + 1))⟩

/-- The header-loop terminator in `HttpRequest.parse`: an empty line (EOF)
or a bare CRLF. -/
def isEndLine (l : Str) : Bool := l = [] || l = ['\r', '\n']

/-- The header loop of `HttpRequest.parse`: stop at the terminator, parse
each line, and skip (catching `BadHttpHeaderError`) the malformed ones. -/
def parseHeaderLines : List Str → List HttpHeaderKV
  | [] => []
  | line :: rest =>
      if isEndLine line then []
      else
        match parse_http_header line with
        | some h => h :: parseHeaderLines rest
        | none => parseHeaderLines rest

/-- `get_first_kv`: first header whose key matches case-insensitively. -/
def get_first_kv (kv_list : List HttpHeaderKV) (key : Str) : Option Str :=
  match kv_list with
  | [] => none
  | i :: rest =>
      if upperStr i.key = upperStr key then some i.value
      else get_first_kv rest key

/-- Python tuple comparison `version < (major, minor)`. -/
def versionLt (v w : Int × Int) : Bool :=
  v.1 < w.1 || (v.1 = w.1 && v.2 < w.2)

/-- The keep-alive decision at the end of `HttpConnectionCB.__call__`'s
loop body: `true` means the loop `continue`s to parse another request,
`false` that the connection is closed. -/
def keepAlive (version : Int × Int) (headers : List HttpHeaderKV) : Bool :=
  if versionLt version (1, 1) then false
  else
    match get_first_kv headers ("Connection".toList) with
    | none => true
    | some v => upperStr v = ("KEEP-ALIVE".toList)

/-! ### StaticRootResource (`src/pyx/http.py`) -/

/-- Value of an ASCII hexadecimal digit. -/
def hexDigitVal (c : Char) : Option Nat :=
  if '0' ≤ c ∧ c ≤ '9' then some (c.toNat - 48)
  else if 'a' ≤ c ∧ c ≤ 'f' then some (c.toNat - 87)
  else if 'A' ≤ c ∧ c ≤ 'F' then some (c.toNat - 55)
  else none

/-- `urllib.parse.unquote` restricted to single-byte percent escapes (the
multi-byte UTF-8 forms do not arise here): a valid `%hh` decodes to one
character, an invalid escape is left literal. -/
def unquoteChars : Str → Str
  | [] => []
  | '%' :: h1 :: h2 :: rest =>
      (match hexDigitVal h1, hexDigitVal h2 with
      | some a, some b => Char.ofNat (16 * a + b) :: unquoteChars rest
      | _, _ => '%' :: unquoteChars (h1 :: h2 :: rest))
  | c :: rest => c :: unquoteChars rest

structure StaticRootResource where
  root : Str
  path : List Str
  deriving DecidableEq

/-- One decoded sub-segment applied to the accumulated path inside
`get_child`: `..` pops the last segment (a no-op on an empty list),
anything else is appended. -/
def procSeg (p : List Str) (s : Str) : List Str :=
  if s = ['.', '.'] then p.dropLast else p ++ [s]

/-- `StaticRootResource.get_child`: percent-decode the key, re-split on
`/`, and fold the sub-segments into the accumulated path. -/
def get_child (res : StaticRootResource) (key : Str) : StaticRootResource :=
  { res with path := (splitOnChar '/' (unquoteChars key)).foldl procSeg res.path }

/-- The loop body of `UrlResource.traverse`: only non-empty segments are
passed to `get_child`. -/
def trvStep (r : StaticRootResource) (s : Str) : StaticRootResource :=
  if s.length > 0 then get_child r s else r

/-- `UrlResource.traverse` as instantiated by `StaticRootResource`. -/
def traverse (res : StaticRootResource) (p : Str) : StaticRootResource :=
  (splitOnChar '/' p).foldl trvStep res

/-- One step of POSIX `os.path.join`. -/
def osJoinOne (a b : Str) : Str :=
  if b.head? = some '/' then b
  else if a = [] then b
  else if a.getLast? = some '/' then a ++ b
  else a ++ '/' :: b

/-- `StaticRootResource._build_real_path`: `os.path.join(root, *path)`. -/
def buildRealPath (res : StaticRootResource) : Str :=
  res.path.foldl osJoinOne res.root

/-- A stored path segment that cannot move the built path upward or
introduce new separators. -/
abbrev goodSeg (s : Str) : Prop := s ≠ ['.', '.'] ∧ '/' ∉ s

theorem takeLine_append_dropLine (s : Bytes) : takeLine s ++ dropLine s = s := by
  induction s with
  | nil => rfl
  | cons c rest ih =>
      by_cases h : c = 10 <;> simp [takeLine, dropLine, h, ih]

theorem dropLine_eq_drop (s : Bytes) : dropLine s = s.drop (takeLine s).length := by
  induction s with
  | nil => rfl
  | cons c rest ih =>
      by_cases h : c = 10 <;> simp [takeLine, dropLine, h, ih]

theorem takeLine_ne_nil (s : Bytes) (h : s ≠ []) : takeLine s ≠ [] := by
  cases s with
  | nil => exact absurd rfl h
  | cons c rest =>
      by_cases hc : c = 10 <;> simp [takeLine, hc]

theorem takeLine_append_of_mem (a b : Bytes) (h : 10 ∈ a) :
    takeLine (a ++ b) = takeLine a := by
  induction a with
  | nil => simp at h
  | cons c rest ih =>
      by_cases hc : c = 10
      · simp [takeLine, hc]
      · have : 10 ∈ rest := by
          rcases List.mem_cons.mp h with h' | h'
          · exact absurd h'.symm hc
          · exact h'
        simp [takeLine, hc, ih this]

theorem takeLine_append_of_not_mem (a b : Bytes) (h : 10 ∉ a) :
    takeLine (a ++ b) = a ++ takeLine b := by
  induction a with
  | nil => simp
  | cons c rest ih =>
      have hc : c ≠ 10 := fun hc => h (by simp [hc])
      have : 10 ∉ rest := fun hm => h (by simp [hm])
      simp [takeLine, hc, ih this]

theorem takeLine_length_le (s : Bytes) : (takeLine s).length ≤ s.length := by
  induction s with
  | nil => simp [takeLine]
  | cons c rest ih =>
      by_cases h : c = 10 <;> simp [takeLine, h] <;> omega

theorem takeLine_eq_take (s : Bytes) : takeLine s = s.take (takeLine s).length := by
  induction s with
  | nil => rfl
  | cons c rest ih =>
      by_cases h : c = 10
      · simp [takeLine, h]
      · simp only [takeLine, if_neg h, List.length_cons, List.take_succ_cons]
        exact congrArg (c :: ·) ih

/-! ### Content abstraction lemmas for `BufReader` -/

theorem bufPut_content (st : BufReader) (d : Bytes) :
    bufContent (bufPut st d) = d ++ bufContent st := by
  simp [bufPut, bufContent]

theorem rfbAux_spec (buf : List Bytes) (n : Nat) :
    (rfbAux buf n).1 = buf.flatten.take n ∧
    (rfbAux buf n).2.1.flatten = buf.flatten.drop n ∧
    (rfbAux buf n).2.2 = n - min n buf.flatten.length := by
  induction buf generalizing n with
  | nil =>
      cases n with
      | zero => simp [rfbAux]
      | succ m => simp [rfbAux]
  | cons data rest ih =>
      cases n with
      | zero => simp [rfbAux]
      | succ m =>
          by_cases h : data.length > m+1
          · have h1 : (m+1) - data.length = 0 := by omega
            simp only [rfbAux, if_pos h]
            refine ⟨?_, ?_, ?_⟩
            · rw [List.flatten_cons, List.take_append_eq_append_take, h1]
              simp
            · rw [List.flatten_cons, List.flatten_cons,
                  List.drop_append_eq_append_drop, h1]
              simp
            · simp only [List.flatten_cons, List.length_append]
              omega
          · push_neg at h
            obtain ⟨ih1, ih2, ih3⟩ := ih (m+1 - data.length)
            simp only [rfbAux, if_neg (by omega : ¬ data.length > m+1)]
            refine ⟨?_, ?_, ?_⟩
            · rw [List.flatten_cons, List.take_append_eq_append_take,
                  List.take_of_length_le h, ih1]
            · rw [List.flatten_cons, List.drop_append_eq_append_drop,
                  List.drop_of_length_le h, ih2]
              simp
            · rw [ih3]
              simp only [List.flatten_cons, List.length_append]
              rcases le_total (m+1 - data.length) rest.flatten.length with hle | hle
              · rw [min_eq_left hle, min_eq_left (by omega)]
                omega
              · rw [min_eq_right hle, min_eq_right (by omega)]
                omega

theorem bufRead_spec (st : BufReader) (n : Int) :
    (bufRead st n).1 =
      (if n < 0 then bufContent st else (bufContent st).take n.toNat) ∧
    bufContent (bufRead st n).2 =
      (if n < 0 then [] else (bufContent st).drop n.toNat) := by
  by_cases hn : n < 0
  · have hne : n ≠ 0 := by omega
    simp [bufRead, read_from_buffer, hn, streamRead, bufContent, hne]
  · obtain ⟨h1, h2, h3⟩ := rfbAux_spec st.buffer n.toNat
    by_cases hm : (rfbAux st.buffer n.toNat).2.2 = 0
    · have hmin : min n.toNat st.buffer.flatten.length = n.toNat := by
        rcases le_total n.toNat st.buffer.flatten.length with h | h
        · exact min_eq_left h
        · rw [min_eq_right h]; omega
      have hle : n.toNat ≤ st.buffer.flatten.length := by
        rcases le_total n.toNat st.buffer.flatten.length with h | h
        · exact h
        · have := hmin; omega
      constructor
      · simp only [bufRead, read_from_buffer, if_neg hn]
        rw [if_neg (by simpa using hm)]
        simp only [if_neg hn, h1, bufContent]
        rw [List.take_append_eq_append_take,
            (by omega : n.toNat - st.buffer.flatten.length = 0)]
        simp
      · simp only [bufRead, read_from_buffer, if_neg hn]
        rw [if_neg (by simpa using hm)]
        simp only [bufContent, if_neg hn, h2]
        rw [List.drop_append_eq_append_drop,
            (by omega : n.toNat - st.buffer.flatten.length = 0)]
        simp
    · have hgt : st.buffer.flatten.length < n.toNat := by
        rcases le_total n.toNat st.buffer.flatten.length with h | h
        · rw [min_eq_left h] at h3; omega
        · rw [min_eq_right h] at h3; omega
      have hpos : (0:Int) < ((rfbAux st.buffer n.toNat).2.2 : Int) := by
        rw [h3, min_eq_right (le_of_lt hgt)]
        have : 0 < n.toNat - st.buffer.flatten.length := by omega
        exact_mod_cast this
      constructor
      · simp only [bufRead, read_from_buffer, if_neg hn]
        rw [if_pos (by simpa using hm)]
        simp only [streamRead, if_neg (by omega : ¬ ((rfbAux st.buffer n.toNat).2.2 : Int) < 0),
          h1, h3, min_eq_right (le_of_lt hgt), Int.toNat_natCast, bufContent, if_neg hn]
        rw [if_neg (by omega : ¬ ((n.toNat - st.buffer.flatten.length : Nat) : Int) < 0),
          List.take_append_eq_append_take]
      · simp only [bufRead, read_from_buffer, if_neg hn]
        rw [if_pos (by simpa using hm)]
        simp only [streamRead, if_neg (by omega : ¬ ((rfbAux st.buffer n.toNat).2.2 : Int) < 0),
          bufContent, if_neg hn, h2, h3, min_eq_right (le_of_lt hgt), Int.toNat_natCast]
        rw [if_neg (by omega : ¬ ((n.toNat - st.buffer.flatten.length : Nat) : Int) < 0),
          List.drop_append_eq_append_drop]

/-! ### LengthReader accounting lemmas -/

theorem drop_length_min (l : Bytes) (k : Nat) : l.drop (min k l.length) = l.drop k := by
  rcases le_total k l.length with h | h
  · rw [min_eq_left h]
  · rw [min_eq_right h, List.drop_length, List.drop_of_length_le h]

theorem bufRead_spec_nonneg (st : BufReader) (m : Int) (hm : 0 ≤ m) :
    (bufRead st m).1 = (bufContent st).take m.toNat ∧
    bufContent (bufRead st m).2 = (bufContent st).drop m.toNat := by
  have h := bufRead_spec st m
  rw [if_neg (by omega), if_neg (by omega)] at h
  exact h

theorem bufReadline_spec (st : BufReader) :
    (bufReadline st).1 = takeLine (bufContent st) ∧
    bufContent (bufReadline st).2 =
      (bufContent st).drop (takeLine (bufContent st)).length := by
  by_cases hmem : 10 ∈ st.buffer.flatten
  · simp only [bufReadline, if_pos hmem]
    constructor
    · exact (takeLine_append_of_mem _ _ hmem).symm
    · simp only [bufContent, List.flatten_cons, List.flatten_nil, List.append_nil]
      rw [takeLine_append_of_mem _ _ hmem, List.drop_append_eq_append_drop,
        (by have := takeLine_length_le st.buffer.flatten; omega :
          (takeLine st.buffer.flatten).length - st.buffer.flatten.length = 0)]
      simp
  · simp only [bufReadline, if_neg hmem]
    constructor
    · exact (takeLine_append_of_not_mem _ _ hmem).symm
    · simp only [bufContent, List.flatten_nil, List.nil_append]
      rw [takeLine_append_of_not_mem _ _ hmem, List.drop_append_eq_append_drop,
        List.length_append,
        List.drop_of_length_le (by omega : st.buffer.flatten.length ≤
          st.buffer.flatten.length + (takeLine st.stream).length)]
      simp

theorem lenAmount_le (st : LenReader) (n : Int) : lenAmount st n ≤ st.remaining := by
  unfold lenAmount
  by_cases h : n < 0 ∨ (st.remaining : Int) ≤ n
  · rw [if_pos h]
  · rw [if_neg h]
    push_neg at h
    omega

theorem lenRead_eq (st : LenReader) (n : Int) (hr : 0 < st.remaining) :
    lenRead st n = ((bufContent st.reader).take (lenAmount st n),
      ⟨(bufRead st.reader (if n < 0 then (st.remaining : Int)
          else min (st.remaining : Int) n)).2,
        st.remaining - ((bufContent st.reader).take (lenAmount st n)).length⟩) := by
  by_cases hn : n < 0
  · obtain ⟨h1, h2⟩ := bufRead_spec_nonneg st.reader (st.remaining : Int) (by omega)
    rw [Int.toNat_natCast] at h1
    simp only [lenRead, if_pos hr, if_pos hn, h1, lenAmount, if_pos (Or.inl hn)]
  · have hmn : (0:Int) ≤ min (st.remaining : Int) n := by
      simp only [le_min_iff]
      omega
    obtain ⟨h1, h2⟩ := bufRead_spec_nonneg st.reader (min (st.remaining : Int) n) hmn
    have htn : (min (st.remaining : Int) n).toNat = lenAmount st n := by
      unfold lenAmount
      rcases le_total (st.remaining : Int) n with h | h
      · rw [min_eq_left h, if_pos (Or.inr h), Int.toNat_natCast]
      · by_cases he : (st.remaining : Int) ≤ n
        · rw [min_eq_left he, if_pos (Or.inr he), Int.toNat_natCast]
        · rw [min_eq_right h, if_neg (by tauto)]
    rw [htn] at h1
    simp only [lenRead, if_pos hr, if_neg hn, h1]

theorem lenRead_spec (st : LenReader) (n : Int) :
    (lenRead st n).2.remaining + (lenRead st n).1.length = st.remaining ∧
    bufContent (lenRead st n).2.reader =
      (bufContent st.reader).drop (lenRead st n).1.length ∧
    (n ≠ 0 → (lenRead st n).1 = [] → st.remaining = 0 ∨ bufContent st.reader = []) := by
  by_cases hr : 0 < st.remaining
  · set c := bufContent st.reader with hc
    set k := lenAmount st n with hk
    have hkr : k ≤ st.remaining := lenAmount_le st n
    have heq := lenRead_eq st n hr
    have hlen : ((lenRead st n).1).length = min k c.length := by
      rw [heq, List.length_take]
    have harg : (0:Int) ≤ (if n < 0 then (st.remaining : Int)
        else min (st.remaining : Int) n) := by
      by_cases hn : n < 0
      · rw [if_pos hn]; omega
      · rw [if_neg hn]
        simp only [le_min_iff]
        omega
    have htn : (if n < 0 then (st.remaining : Int)
        else min (st.remaining : Int) n).toNat = k := by
      by_cases hn : n < 0
      · rw [if_pos hn, Int.toNat_natCast, hk, lenAmount, if_pos (Or.inl hn)]
      · rw [if_neg hn, hk]
        unfold lenAmount
        rcases le_total (st.remaining : Int) n with h | h
        · rw [min_eq_left h, if_pos (Or.inr h), Int.toNat_natCast]
        · by_cases he : (st.remaining : Int) ≤ n
          · rw [min_eq_left he, if_pos (Or.inr he), Int.toNat_natCast]
          · rw [min_eq_right h, if_neg (by tauto)]
    obtain ⟨_, h2⟩ := bufRead_spec_nonneg st.reader _ harg
    rw [htn] at h2
    refine ⟨?_, ?_, ?_⟩
    · rw [heq]
      simp only [List.length_take]
      have : min k c.length ≤ st.remaining := le_trans (min_le_left _ _) hkr
      omega
    · rw [heq]
      simp only [List.length_take]
      rw [h2, heq] at *
      rw [drop_length_min]
    · intro hn0 hemp
      rw [heq] at hemp
      simp only at hemp
      have := congrArg List.length hemp
      rw [List.length_take, List.length_nil] at this
      rcases Nat.min_eq_zero_iff.mp this with h | h
      · unfold lenAmount at h
        by_cases hcnd : n < 0 ∨ (st.remaining : Int) ≤ n
        · rw [if_pos hcnd] at h
          omega
        · rw [if_neg hcnd] at h
          push_neg at hcnd
          exfalso
          have : n = 0 := by omega
          exact hn0 this
      · exact Or.inr (List.eq_nil_of_length_eq_zero h)
  · have hz : st.remaining = 0 := by omega
    simp [lenRead, hr, hz]

theorem lenReadline_spec (st : LenReader) :
    (lenReadline st).2.remaining + (lenReadline st).1.length = st.remaining ∧
    bufContent (lenReadline st).2.reader =
      (bufContent st.reader).drop (lenReadline st).1.length ∧
    ((lenReadline st).1 = [] → st.remaining = 0 ∨ bufContent st.reader = []) := by
  by_cases hr : 0 < st.remaining
  · obtain ⟨h1, h2⟩ := bufReadline_spec st.reader
    set c := bufContent st.reader with hc
    by_cases hov : (bufReadline st.reader).1.length > st.remaining
    · rw [h1] at hov
      have hrem : st.remaining ≤ (takeLine c).length := by omega
      simp only [lenReadline, if_pos hr, h1]
      rw [if_pos hov]
      dsimp only
      refine ⟨?_, ?_, ?_⟩
      · rw [List.length_take]
        omega
      · rw [bufPut_content, h2, List.length_take, min_eq_left (by omega)]
        calc (takeLine c).drop st.remaining ++ c.drop (takeLine c).length
            = (c.take (takeLine c).length).drop st.remaining ++
                (c.drop st.remaining).drop ((takeLine c).length - st.remaining) := by
              rw [← takeLine_eq_take, List.drop_drop,
                (by omega : st.remaining + ((takeLine c).length - st.remaining) =
                  (takeLine c).length)]
          _ = (c.drop st.remaining).take ((takeLine c).length - st.remaining) ++
                (c.drop st.remaining).drop ((takeLine c).length - st.remaining) := by
              rw [List.drop_take]
          _ = c.drop st.remaining := List.take_append_drop _ _
      · intro hemp
        have := congrArg List.length hemp
        rw [List.length_take, List.length_nil] at this
        rcases Nat.min_eq_zero_iff.mp this with h | h
        · omega
        · omega
    · simp only [lenReadline, if_pos hr, if_neg hov]
      push_neg at hov
      rw [h1] at hov
      refine ⟨by rw [h1]; omega, by rw [h2, h1], ?_⟩
      intro hemp
      rw [h1] at hemp
      by_cases hcn : c = []
      · exact Or.inr hcn
      · exact absurd hemp (takeLine_ne_nil c hcn)
  · have hz : st.remaining = 0 := by omega
    simp [lenReadline, hr, hz]

theorem lenRunOp_spec (st : LenReader) (op : LOp) :
    (lenRunOp st op).2.remaining + (lenRunOp st op).1.length = st.remaining ∧
    bufContent (lenRunOp st op).2.reader =
      (bufContent st.reader).drop (lenRunOp st op).1.length ∧
    (op.requests = true → (lenRunOp st op).1 = [] →
      st.remaining = 0 ∨ bufContent st.reader = []) := by
  cases op with
  | read n =>
      obtain ⟨h1, h2, h3⟩ := lenRead_spec st n
      refine ⟨h1, h2, ?_⟩
      intro hreq hemp
      simp only [LOp.requests, decide_eq_true_eq] at hreq
      exact h3 hreq hemp
  | line =>
      obtain ⟨h1, h2, h3⟩ := lenReadline_spec st
      exact ⟨h1, h2, fun _ => h3⟩

theorem getLast?_cons_of_ne_nil' {α : Type} (a : α) (l : List α) (h : l ≠ []) :
    (a :: l).getLast? = l.getLast? := by
  cases l with
  | nil => exact absurd rfl h
  | cons b m => exact List.getLast?_cons_cons

theorem lenRun_length (st : LenReader) (ops : List LOp) :
    (lenRun st ops).1.length = ops.length := by
  induction ops generalizing st with
  | nil => rfl
  | cons op ops ih => simp [lenRun, ih]

theorem lenRun_spec (S : Bytes) (L : Nat) (ops : List LOp) :
    ∀ st : LenReader,
    bufContent st.reader = S.drop (L - st.remaining) → st.remaining ≤ L →
    ((lenRun st ops).2.remaining + (lenRun st ops).1.flatten.length
        = st.remaining) ∧
    bufContent (lenRun st ops).2.reader =
      S.drop (L - (lenRun st ops).2.remaining) ∧
    (lenRun st ops).2.remaining ≤ st.remaining ∧
    (L ≤ S.length → ops.all LOp.requests = true →
      (lenRun st ops).1.getLast? = some [] →
      (lenRun st ops).2.remaining = 0) := by
  induction ops with
  | nil =>
      intro st h1 h2
      refine ⟨by simp [lenRun], by simpa [lenRun] using h1, le_refl _, ?_⟩
      intro _ _ h
      simp [lenRun] at h
  | cons op ops ih =>
      intro st h1 h2
      obtain ⟨s1, s2, s3⟩ := lenRunOp_spec st op
      have hrem' : (lenRunOp st op).2.remaining ≤ L := by omega
      have hcont' : bufContent (lenRunOp st op).2.reader =
          S.drop (L - (lenRunOp st op).2.remaining) := by
        rw [s2, h1, List.drop_drop]
        congr 1
        omega
      obtain ⟨i1, i2, i3, i4⟩ := ih (lenRunOp st op).2 hcont' hrem'
      refine ⟨?_, ?_, ?_, ?_⟩
      · simp only [lenRun, List.flatten_cons, List.length_append]
        omega
      · simpa only [lenRun] using i2
      · simp only [lenRun]
        omega
      · intro hS hall hlast
        simp only [List.all_cons, Bool.and_eq_true] at hall
        simp only [lenRun] at hlast ⊢
        rcases ops with _ | ⟨op2, ops2⟩
        · simp only [lenRun, List.getLast?_singleton, Option.some_inj] at hlast
          rcases s3 hall.1 hlast with hz | hz
          · simp only [lenRun]
            omega
          · rw [h1] at hz
            have := congrArg List.length hz
            rw [List.length_drop, List.length_nil] at this
            have hrz : st.remaining = 0 := by omega
            simp only [lenRun]
            omega
        · have hne : (lenRun (lenRunOp st op).2 (op2 :: ops2)).1 ≠ [] := by
            intro h
            have := lenRun_length (lenRunOp st op).2 (op2 :: ops2)
            rw [h] at this
            simp at this
          rw [getLast?_cons_of_ne_nil' _ _ hne] at hlast
          exact i4 hS hall.2 hlast

theorem bufPuts_content (st : BufReader) (xs : List Bytes) :
    bufContent (bufPuts st xs) = xs.reverse.flatten ++ bufContent st := by
  induction xs generalizing st with
  | nil => simp [bufPuts]
  | cons x xs ih =>
      simp only [bufPuts, List.foldl_cons, List.reverse_cons, List.flatten_append]
      rw [show xs.foldl bufPut (bufPut st x) = bufPuts (bufPut st x) xs from rfl,
        ih, bufPut_content]
      simp

/-! ## readexactly lemmas and the first claim theorems -/

theorem lenPut_spec (st : LenReader) (b : Bytes) :
    (lenPut st b).remaining = st.remaining + b.length ∧
    bufContent (lenPut st b).reader = b ++ bufContent st.reader := by
  exact ⟨rfl, bufPut_content st.reader b⟩

theorem bufReadexactly_enough (st : BufReader) (n : Int) (h0 : 0 ≤ n)
    (hlen : n.toNat ≤ (bufContent st).length) :
    ∃ st', bufReadexactly st n = .ok ((bufContent st).take n.toNat) st' ∧
      bufContent st' = (bufContent st).drop n.toNat := by
  obtain ⟨h1, h2, h3⟩ := rfbAux_spec st.buffer n.toNat
  by_cases hm : (rfbAux st.buffer n.toNat).2.2 = 0
  · have hle : n.toNat ≤ st.buffer.flatten.length := by
      rcases le_total n.toNat st.buffer.flatten.length with h | h
      · exact h
      · rw [min_eq_right h] at h3
        omega
    refine ⟨⟨(rfbAux st.buffer n.toNat).2.1, st.stream⟩, ?_, ?_⟩
    · simp only [bufReadexactly, if_neg (by omega : ¬ n < 0), read_from_buffer,
        if_neg (by omega : ¬ n < 0)]
      rw [if_neg (by simpa using hm), h1, bufContent,
        List.take_append_of_le_length hle]
    · simp only [bufContent, h2]
      rw [List.drop_append_eq_append_drop,
        (by omega : n.toNat - st.buffer.flatten.length = 0)]
      simp
  · have hgt : st.buffer.flatten.length < n.toNat := by
      rcases le_total n.toNat st.buffer.flatten.length with h | h
      · rw [min_eq_left h] at h3; omega
      · rw [min_eq_right h] at h3; omega
    have hmv : (rfbAux st.buffer n.toNat).2.2 = n.toNat - st.buffer.flatten.length := by
      rw [h3, min_eq_right (le_of_lt hgt)]
    have hsl : n.toNat - st.buffer.flatten.length ≤ st.stream.length := by
      have : (bufContent st).length = st.buffer.flatten.length + st.stream.length := by
        simp [bufContent]
      omega
    refine ⟨⟨(rfbAux st.buffer n.toNat).2.1,
      st.stream.drop (n.toNat - st.buffer.flatten.length)⟩, ?_, ?_⟩
    · simp only [bufReadexactly, if_neg (by omega : ¬ n < 0), read_from_buffer,
        if_neg (by omega : ¬ n < 0)]
      rw [if_pos (by simpa using hm)]
      simp only [hmv, Int.toNat_natCast, streamReadexactly, if_pos hsl]
      rw [h1, bufContent, List.take_append_eq_append_take,
        List.take_of_length_le (le_of_lt hgt)]
    · simp only [bufContent, h2]
      rw [List.drop_append_eq_append_drop, List.drop_of_length_le (le_of_lt hgt)]

theorem bufReadexactly_short (st : BufReader) (n : Int) (h0 : 0 ≤ n)
    (hlen : (bufContent st).length < n.toNat) :
    bufReadexactly st n = .err st.stream
      ((n.toNat - st.buffer.flatten.length : Nat) : Int)
      ⟨(rfbAux st.buffer n.toNat).2.1, []⟩ := by
  obtain ⟨h1, h2, h3⟩ := rfbAux_spec st.buffer n.toNat
  have hclen : (bufContent st).length = st.buffer.flatten.length + st.stream.length := by
    simp [bufContent]
  have hgt : st.buffer.flatten.length < n.toNat := by omega
  have hmv : (rfbAux st.buffer n.toNat).2.2 = n.toNat - st.buffer.flatten.length := by
    rw [h3, min_eq_right (le_of_lt hgt)]
  simp only [bufReadexactly, if_neg (by omega : ¬ n < 0), read_from_buffer,
    if_neg (by omega : ¬ n < 0)]
  rw [if_pos (show ((rfbAux st.buffer n.toNat).2.2 : Int) ≠ 0 by rw [hmv]; omega)]
  simp only [hmv, Int.toNat_natCast, streamReadexactly,
    if_neg (by omega : ¬ n.toNat - st.buffer.flatten.length ≤ st.stream.length)]

theorem bufReadexactly_ok_inv (st : BufReader) (n : Int) (d : Bytes)
    (st' : BufReader) (h : bufReadexactly st n = .ok d st') :
    d = (bufContent st).take n.toNat ∧
    bufContent st' = (bufContent st).drop n.toNat ∧
    d.length = n.toNat := by
  by_cases hn : n < 0
  · rw [bufReadexactly, if_pos hn] at h
    obtain ⟨hd, hst⟩ := RdRes.ok.inj h
    subst hd hst
    have : n.toNat = 0 := by omega
    simp [this]
  · by_cases hlen : n.toNat ≤ (bufContent st).length
    · obtain ⟨st'', heq, hc⟩ := bufReadexactly_enough st n (by omega) hlen
      rw [heq] at h
      obtain ⟨hd, hst⟩ := RdRes.ok.inj h
      subst hd
      rw [← hst]
      refine ⟨rfl, hc, ?_⟩
      rw [List.length_take, min_eq_left hlen]
    · push_neg at hlen
      rw [bufReadexactly_short st n (by omega) hlen] at h
      exact absurd h (by simp)

theorem lenReadexactly_ok_inv (st : LenReader) (n : Int) (d : Bytes)
    (st' : LenReader) (h : lenReadexactly st n = .ok d st') :
    st'.remaining + d.length = st.remaining ∧
    bufContent st'.reader = (bufContent st.reader).drop d.length := by
  by_cases hn : n < 0
  · rw [lenReadexactly, if_pos hn] at h
    obtain ⟨hd, hst⟩ := RdRes.ok.inj h
    subst hd hst
    simp
  · rw [lenReadexactly, if_neg hn] at h
    by_cases hr : 0 < st.remaining
    · rw [if_pos hr] at h
      by_cases hlt : (st.remaining : Int) < n
      · rw [if_pos hlt] at h
        rcases hb : bufReadexactly st.reader (st.remaining : Int) with ⟨d2, r2⟩ | ⟨p2, e2, r2⟩
        · rw [hb] at h
          exact absurd h (by simp)
        · rw [hb] at h
          exact absurd h (by simp)
      · rw [if_neg hlt] at h
        rcases hb : bufReadexactly st.reader n with ⟨d2, r2⟩ | ⟨p2, e2, r2⟩
        · rw [hb] at h
          simp only at h
          obtain ⟨hd, hst⟩ := RdRes.ok.inj h
          subst hd
          rw [← hst]
          obtain ⟨b1, b2, b3⟩ := bufReadexactly_ok_inv st.reader n d2 r2 hb
          have hdl : d2.length ≤ st.remaining := by omega
          refine ⟨?_, ?_⟩
          · dsimp only
            omega
          · dsimp only
            rw [b2, b3]
        · rw [hb] at h
          exact absurd h (by simp)
    · rw [if_neg hr] at h
      exact absurd h (by simp)

theorem lenReadexactly_err_inv (st : LenReader) (n : Int) (p : Bytes) (e : Int)
    (st' : LenReader) (h : lenReadexactly st n = .err p e st') :
    st'.remaining = st.remaining := by
  by_cases hn : n < 0
  · rw [lenReadexactly, if_pos hn] at h
    exact absurd h (by simp)
  · rw [lenReadexactly, if_neg hn] at h
    by_cases hr : 0 < st.remaining
    · rw [if_pos hr] at h
      by_cases hlt : (st.remaining : Int) < n
      · rw [if_pos hlt] at h
        rcases hb : bufReadexactly st.reader (st.remaining : Int) with ⟨d2, r2⟩ | ⟨p2, e2, r2⟩
        · rw [hb] at h
          simp only at h
          obtain ⟨_, _, hst⟩ := RdRes.err.inj h
          rw [← hst]
        · rw [hb] at h
          simp only at h
          obtain ⟨_, _, hst⟩ := RdRes.err.inj h
          rw [← hst]
      · rw [if_neg hlt] at h
        rcases hb : bufReadexactly st.reader n with ⟨d2, r2⟩ | ⟨p2, e2, r2⟩
        · rw [hb] at h
          exact absurd h (by simp)
        · rw [hb] at h
          simp only at h
          obtain ⟨_, _, hst⟩ := RdRes.err.inj h
          rw [← hst]
    · rw [if_neg hr] at h
      obtain ⟨_, _, hst⟩ := RdRes.err.inj h
      rw [← hst]

/-- C2: for a `BufferedReader` over stream `S`, after `put(x1); …; put(xk)`
with no intervening reads, `read(len x1 + … + len xk)` returns exactly
`xk ++ … ++ x1` (which is `xs.reverse.flatten`), `read(-1)` returns
`xk ++ … ++ x1 ++ S`, and a partially consumed chunk's remainder is re-pushed
(the popped chunk `d` with `n < len d` yields `take n d` and re-pushes
`drop n d`). -/
theorem claim_C2_buffered_reader_lifo (S : Bytes) (xs : List Bytes) :
    (bufRead (bufPuts ⟨[], S⟩ xs) ((xs.reverse.flatten.length : Nat) : Int)).1
      = xs.reverse.flatten ∧
    (bufRead (bufPuts ⟨[], S⟩ xs) (-1)).1 = xs.reverse.flatten ++ S ∧
    (∀ (d : Bytes) (rest : List Bytes) (n : Nat), 0 < n → n < d.length →
      rfbAux (d :: rest) n = (d.take n, d.drop n :: rest, 0)) := by
  have hc : bufContent (bufPuts ⟨[], S⟩ xs) = xs.reverse.flatten ++ S := by
    rw [bufPuts_content]
    simp [bufContent]
  refine ⟨?_, ?_, ?_⟩
  · obtain ⟨h1, _⟩ := bufRead_spec (bufPuts ⟨[], S⟩ xs)
      ((xs.reverse.flatten.length : Nat) : Int)
    rw [if_neg (by omega)] at h1
    rw [h1, hc, Int.toNat_natCast, List.take_left]
  · obtain ⟨h1, _⟩ := bufRead_spec (bufPuts ⟨[], S⟩ xs) (-1)
    rw [if_pos (by omega)] at h1
    rw [h1, hc]
  · intro d rest n hn hlt
    rcases n with _ | m
    · omega
    · simp only [rfbAux, if_pos (by omega : d.length > m+1)]

/-- Witness for C2 at a concrete stream and pushback sequence. -/
theorem claim_C2_buffered_reader_lifo_witness :
    (bufRead (bufPuts ⟨[], [5]⟩ [[1], [2, 3]]) 3).1 = [2, 3, 1] ∧
    (bufRead (bufPuts ⟨[], [5]⟩ [[1], [2, 3]]) (-1)).1 = [2, 3, 1, 5] ∧
    rfbAux [[1, 2], [3]] 1 = ([1], [[2], [3]], 0) := by
  obtain ⟨h1, h2, h3⟩ := claim_C2_buffered_reader_lifo [5] [[1], [2, 3]]
  exact ⟨h1, h2, h3 [1, 2] [[3]] 1 (by decide) (by decide)⟩

/-- C4: for `LengthReader(inner, L)` over a fresh buffered reader on stream
`S`, across any sequence of `read`/`readline` calls the total returned is at
most `L`; it equals `L` whenever the stream supplies at least `L` bytes and
the sequence is run until a call returns empty (calls must request data, i.e.
`read 0` — which trivially returns empty — is excluded); and a `readline`
whose line overflows the budget returns exactly the first `remaining` bytes
and pushes the overflow back onto the inner reader. -/
theorem claim_C4_length_reader_budget (S : Bytes) (L : Nat) (ops : List LOp)
    (hreq : ops.all LOp.requests = true) :
    (lenRun ⟨⟨[], S⟩, L⟩ ops).1.flatten.length ≤ L ∧
    (lenRun ⟨⟨[], S⟩, L⟩ ops).1.flatten.length
      + (lenRun ⟨⟨[], S⟩, L⟩ ops).2.remaining = L ∧
    (L ≤ S.length → (lenRun ⟨⟨[], S⟩, L⟩ ops).1.getLast? = some [] →
      (lenRun ⟨⟨[], S⟩, L⟩ ops).1.flatten.length = L) ∧
    (∀ st : LenReader, 0 < st.remaining →
      st.remaining < (bufReadline st.reader).1.length →
      lenReadline st = ((bufReadline st.reader).1.take st.remaining,
        ⟨bufPut (bufReadline st.reader).2
          ((bufReadline st.reader).1.drop st.remaining), 0⟩)) := by
  obtain ⟨a1, _, _, a4⟩ := lenRun_spec S L ops ⟨⟨[], S⟩, L⟩
    (by simp [bufContent]) (le_refl L)
  dsimp only at a1 a4
  refine ⟨by omega, by omega, ?_, ?_⟩
  · intro hS hlast
    have := a4 hS hreq hlast
    omega
  · intro st hr hov
    simp only [lenReadline, if_pos hr, if_pos hov]

/-- Witness for C4: two bounded reads exhaust a 3-byte budget over a 4-byte
stream. -/
theorem claim_C4_length_reader_budget_witness :
    (lenRun ⟨⟨[], [1, 2, 3, 4]⟩, 3⟩ [.read 2, .read 2, .read 2]).1.flatten.length ≤ 3 ∧
    (lenRun ⟨⟨[], [1, 2, 3, 4]⟩, 3⟩ [.read 2, .read 2, .read 2]).1.flatten.length = 3 ∧
    lenReadline ⟨⟨[], [1, 10, 2]⟩, 1⟩ =
      ([1], ⟨bufPut (bufReadline (⟨[], [1, 10, 2]⟩ : BufReader)).2 [10], 0⟩) := by
  obtain ⟨h1, _, h3, h4⟩ := claim_C4_length_reader_budget [1, 2, 3, 4] 3
    [.read 2, .read 2, .read 2] (by decide)
  refine ⟨h1, h3 (by decide) (by decide), ?_⟩
  have := h4 ⟨⟨[], [1, 10, 2]⟩, 1⟩ (by decide) (by decide)
  rw [this]
  rfl

/-- C5 (amended): after `read`, `readline` and `put` the `remaining` counter
tracks exactly (reads decrement it by the bytes delivered and consume exactly
that many bytes from the inner reader; `put(b)` grows it by `len b`); a
successful `readexactly` likewise decrements by the bytes delivered; but a
`readexactly` that fails with incomplete-read leaves `remaining` unchanged
even though it may have consumed bytes from the inner reader (see the
counterexample). -/
theorem claim_C5_remaining_accounting (st : LenReader) (n : Int) (b : Bytes) :
    ((lenRead st n).2.remaining + (lenRead st n).1.length = st.remaining ∧
      bufContent (lenRead st n).2.reader =
        (bufContent st.reader).drop (lenRead st n).1.length) ∧
    ((lenReadline st).2.remaining + (lenReadline st).1.length = st.remaining ∧
      bufContent (lenReadline st).2.reader =
        (bufContent st.reader).drop (lenReadline st).1.length) ∧
    ((lenPut st b).remaining = st.remaining + b.length ∧
      bufContent (lenPut st b).reader = b ++ bufContent st.reader) ∧
    (∀ (d : Bytes) (st' : LenReader), lenReadexactly st n = .ok d st' →
      st'.remaining + d.length = st.remaining ∧
      bufContent st'.reader = (bufContent st.reader).drop d.length) ∧
    (∀ (p : Bytes) (e : Int) (st' : LenReader),
      lenReadexactly st n = .err p e st' → st'.remaining = st.remaining) := by
  obtain ⟨r1, r2, _⟩ := lenRead_spec st n
  obtain ⟨l1, l2, _⟩ := lenReadline_spec st
  refine ⟨⟨r1, r2⟩, ⟨l1, l2⟩, lenPut_spec st b, ?_, ?_⟩
  · intro d st' h
    exact lenReadexactly_ok_inv st n d st' h
  · intro p e st' h
    exact lenReadexactly_err_inv st n p e st' h

/-- Witness for C5: a successful `readexactly(1)` on budget 2 decrements to 1;
a failing `readexactly(2)` on budget 1 leaves the budget at 1. -/
theorem claim_C5_remaining_accounting_witness :
    ((⟨⟨[], [8]⟩, 1⟩ : LenReader).remaining + ([7] : Bytes).length =
      (⟨⟨[], [7, 8]⟩, 2⟩ : LenReader).remaining) ∧
    ((⟨⟨[], [98]⟩, 1⟩ : LenReader).remaining =
      (⟨⟨[], [97, 98]⟩, 1⟩ : LenReader).remaining) := by
  constructor
  · exact ((claim_C5_remaining_accounting ⟨⟨[], [7, 8]⟩, 2⟩ 1 []).2.2.2.1
      [7] ⟨⟨[], [8]⟩, 1⟩ (by decide)).1
  · exact (claim_C5_remaining_accounting ⟨⟨[], [97, 98]⟩, 1⟩ 2 []).2.2.2.2
      [97] 2 ⟨⟨[], [98]⟩, 1⟩ (by decide)

/-- Counterexample to C5 as stated: on `LengthReader(inner, 1)` with inner
content `[97, 98]`, `readexactly(2)` fails with incomplete-read after
consuming one byte (`[97]`, delivered in the exception) from the inner
reader, yet `remaining` is still 1 — the consumed byte is NOT accounted for
in `remaining`, contradicting "no operation consumes bytes from the inner
reader without accounting for them in `remaining` — including a
readexactly(n) that fails". -/
theorem claim_C5_remaining_accounting_cex :
    lenReadexactly ⟨⟨[], [97, 98]⟩, 1⟩ 2 =
      RdRes.err [97] 2 ⟨⟨[], [98]⟩, 1⟩ ∧
    ¬ ((⟨⟨[], [98]⟩, 1⟩ : LenReader).remaining + ([97] : Bytes).length =
      (⟨⟨[], [97, 98]⟩, 1⟩ : LenReader).remaining) := by
  exact ⟨by decide, by decide⟩

/-! ### Occurrence and search lemmas -/

theorem occursAt_length (M s : Bytes) (p : Nat) (hM : M ≠ [])
    (h : occursAt M s p) : p + M.length ≤ s.length := by
  unfold occursAt at h
  have hlen := congrArg List.length h
  rw [List.length_take, List.length_drop] at hlen
  have hpos : 0 < M.length := List.length_pos.mpr hM
  omega

theorem occursAt_take (M full : Bytes) (k q : Nat)
    (h : occursAt M (full.take k) q) : occursAt M full q := by
  unfold occursAt at h ⊢
  rw [List.drop_take, List.take_take] at h
  have hlen := congrArg List.length h
  rw [List.length_take, List.length_drop] at hlen
  have h1 : min M.length (k - q) = M.length := by omega
  rw [h1] at h
  exact h

theorem occursAt_of_take (M full : Bytes) (k q : Nat)
    (h : occursAt M full q) (hk : q + M.length ≤ k) :
    occursAt M (full.take k) q := by
  unfold occursAt at h ⊢
  rw [List.drop_take, List.take_take, min_eq_left (by omega : M.length ≤ k - q)]
  exact h

theorem occursAt_marker (A' M T : Bytes) :
    occursAt M (A' ++ M ++ T) A'.length := by
  unfold occursAt
  rw [List.append_assoc, List.drop_left, List.take_append_of_le_length (le_refl _),
    List.take_length]

theorem findSubAux_some (needle : Bytes) :
    ∀ (s : Bytes) (j : Nat), findSubAux needle s = some j →
      occursAt needle s j ∧ ∀ q < j, ¬ occursAt needle s q := by
  intro s
  induction s with
  | nil =>
      intro j h
      simp only [findSubAux] at h
      by_cases hn : needle = []
      · rw [if_pos hn] at h
        obtain rfl : (0 : Nat) = j := Option.some.inj h
        exact ⟨by simp [occursAt, hn], by omega⟩
      · rw [if_neg hn] at h
        exact absurd h (by simp)
  | cons c rest ih =>
      intro j h
      simp only [findSubAux] at h
      by_cases h0 : needle = (c :: rest).take needle.length
      · rw [if_pos h0] at h
        obtain rfl : (0 : Nat) = j := Option.some.inj h
        exact ⟨by simpa [occursAt] using h0, by omega⟩
      · rw [if_neg h0] at h
        rcases hb : findSubAux needle rest with _ | j'
        · rw [hb] at h
          exact absurd h (by simp)
        · rw [hb] at h
          simp only [Option.map_some', Option.some_inj] at h
          subst h
          obtain ⟨ho, hmin⟩ := ih j' hb
          constructor
          · simpa [occursAt] using ho
          · intro q hq
            rcases q with _ | q'
            · intro hocc
              exact h0 (by simpa [occursAt] using hocc)
            · intro hocc
              exact hmin q' (by omega) (by simpa [occursAt] using hocc)

theorem findSubAux_none (needle : Bytes) :
    ∀ (s : Bytes), findSubAux needle s = none →
      ∀ q, ¬ occursAt needle s q := by
  intro s
  induction s with
  | nil =>
      intro h q
      simp only [findSubAux] at h
      by_cases hn : needle = []
      · rw [if_pos hn] at h
        exact absurd h (by simp)
      · intro hocc
        unfold occursAt at hocc
        simp only [List.drop_nil, List.take_nil] at hocc
        exact hn hocc
  | cons c rest ih =>
      intro h q
      simp only [findSubAux] at h
      by_cases h0 : needle = (c :: rest).take needle.length
      · rw [if_pos h0] at h
        exact absurd h (by simp)
      · rw [if_neg h0] at h
        rcases hb : findSubAux needle rest with _ | j'
        · rcases q with _ | q'
          · intro hocc
            exact h0 (by simpa [occursAt] using hocc)
          · intro hocc
            exact ih hb q' (by simpa [occursAt] using hocc)
        · rw [hb] at h
          exact absurd h (by simp)

theorem occursAt_drop_iff (needle hay : Bytes) (start j : Nat) :
    occursAt needle (hay.drop start) j ↔ occursAt needle hay (start + j) := by
  unfold occursAt
  rw [List.drop_drop]

theorem findSub_some (needle hay : Bytes) (start p : Nat)
    (h : findSub needle hay start = some p) :
    start ≤ p ∧ occursAt needle hay p ∧
      ∀ q, start ≤ q → q < p → ¬ occursAt needle hay q := by
  unfold findSub at h
  rcases hb : findSubAux needle (hay.drop start) with _ | j
  · rw [hb] at h
    exact absurd h (by simp)
  · rw [hb] at h
    simp only [Option.map_some', Option.some_inj] at h
    obtain ⟨ho, hmin⟩ := findSubAux_some needle (hay.drop start) j hb
    subst h
    refine ⟨by omega, ?_, ?_⟩
    · rw [Nat.add_comm]
      exact (occursAt_drop_iff needle hay start j).mp ho
    · intro q hq1 hq2 hocc
      have : occursAt needle (hay.drop start) (q - start) := by
        rw [occursAt_drop_iff]
        rwa [(by omega : start + (q - start) = q)]
      exact hmin (q - start) (by omega) this

theorem findSub_none (needle hay : Bytes) (start : Nat)
    (h : findSub needle hay start = none) :
    ∀ q, start ≤ q → ¬ occursAt needle hay q := by
  unfold findSub at h
  rcases hb : findSubAux needle (hay.drop start) with _ | j
  · intro q hq hocc
    have : occursAt needle (hay.drop start) (q - start) := by
      rw [occursAt_drop_iff]
      rwa [(by omega : start + (q - start) = q)]
    exact findSubAux_none needle (hay.drop start) hb (q - start) this
  · rw [hb] at h
    exact absurd h (by simp)

theorem prefix_take {a b full : Bytes} (h : a ++ b = full) :
    a = full.take a.length := by
  rw [← h, List.take_left]

theorem suffix_drop {a b full : Bytes} (h : a ++ b = full) :
    b = full.drop a.length := by
  rw [← h, List.drop_left]

/-- When the search window reaches the marker position, `find` returns exactly
the first marker occurrence `A'.length`. -/
theorem findSub_finds_marker (M A' T buf' : Bytes) (sidx : Nat)
    (hpre : buf' = (A' ++ M ++ T).take buf'.length)
    (hNE : ∀ q < A'.length, ¬ occursAt M (A' ++ M ++ T) q)
    (hfit : A'.length + M.length ≤ buf'.length)
    (hsidx : sidx ≤ A'.length) :
    findSub M buf' sidx = some A'.length := by
  have hoccb : occursAt M buf' A'.length := by
    rw [hpre]
    exact occursAt_of_take M (A' ++ M ++ T) buf'.length A'.length
      (occursAt_marker A' M T) hfit
  rcases h : findSub M buf' sidx with _ | p
  · exact absurd hoccb (findSub_none M buf' sidx h A'.length hsidx)
  · obtain ⟨hsp, hocc, hmin⟩ := findSub_some M buf' sidx p h
    have hple : p ≤ A'.length := by
      by_contra hgt
      exact hmin A'.length hsidx (by omega) hoccb
    have hpge : A'.length ≤ p := by
      by_contra hlt
      exact hNE p (by omega) (by rw [hpre] at hocc; exact occursAt_take M _ _ p hocc)
    have : p = A'.length := by omega
    rw [this]

/-- As long as the buffer is too short to contain the marker, `find` fails. -/
theorem findSub_prefix_none (M A' T buf' : Bytes) (sidx : Nat) (hM : M ≠ [])
    (hpre : buf' = (A' ++ M ++ T).take buf'.length)
    (hNE : ∀ q < A'.length, ¬ occursAt M (A' ++ M ++ T) q)
    (hshort : buf'.length < A'.length + M.length) :
    findSub M buf' sidx = none := by
  rcases h : findSub M buf' sidx with _ | p
  · rfl
  · exfalso
    obtain ⟨hsp, hocc, hmin⟩ := findSub_some M buf' sidx p h
    have hfit := occursAt_length M buf' p hM hocc
    have hplt : p < A'.length := by omega
    exact hNE p hplt (by rw [hpre] at hocc; exact occursAt_take M _ _ p hocc)

/-! ### stripBoundary content lemma -/

theorem take_drop_glue (c : Bytes) (m j : Nat) (h : m ≤ j) :
    (c.take j).drop m ++ c.drop j = c.drop m := by
  rw [List.drop_take]
  rw [show c.drop j = (c.drop m).drop (j - m) from by
    rw [List.drop_drop]
    congr 1
    omega]
  exact List.take_append_drop _ _

theorem take_append_take (T1 c : Bytes) (j k : Nat) (hk : k ≤ j) :
    (T1 ++ c.take j).take k = (T1 ++ c).take k := by
  rw [List.take_append_eq_append_take, List.take_append_eq_append_take,
    List.take_take, min_eq_left (by omega : k - T1.length ≤ j)]

theorem append_take_drop_glue (T1 c : Bytes) (j k : Nat) (hk : k ≤ j) :
    (T1 ++ c.take j).drop k ++ c.drop j = (T1 ++ c).drop k := by
  rw [List.drop_append_eq_append_drop, List.drop_append_eq_append_drop,
    List.append_assoc, take_drop_glue c (k - T1.length) j (by omega)]

/-- Content-level behaviour of `_strip_boundary` on a buffer
`X ++ marker ++ T1` with the marker found at `|X|`, where `T1` followed by
the inner content is the stream past the marker: it returns the bytes before
the marker, reports whether the final `--\r\n` trailer follows, and leaves
the inner reader holding exactly the post-marker stream with its trailer
stripped. -/
theorem stripBoundary_spec (bd X T1 : Bytes) (inner : BufReader) :
    (stripBoundary bd (X ++ bd ++ T1) X.length inner).1
        = hasTrailer (T1 ++ bufContent inner) ∧
    (stripBoundary bd (X ++ bd ++ T1) X.length inner).2.1 = X ∧
    bufContent (stripBoundary bd (X ++ bd ++ T1) X.length inner).2.2
        = stripTrailer (T1 ++ bufContent inner) := by
  set c := bufContent inner with hc
  have hbuflen : (X ++ bd ++ T1).length = X.length + bd.length + T1.length := by
    simp [List.length_append]
    omega
  have hdropS : (X ++ bd ++ T1).drop (X.length + bd.length) = T1 := by
    rw [show X.length + bd.length = (X ++ bd).length from (List.length_append _ _).symm,
      List.drop_left]
  have htakeX : (X ++ bd ++ T1).take X.length = X := by
    rw [List.append_assoc, List.take_append_of_le_length (le_refl _), List.take_length]
  by_cases h4 : 4 ≤ T1.length
  · have hcond : ¬ ((X.length : Int) + bd.length > ((X ++ bd ++ T1).length : Int) - 4) := by
      rw [hbuflen]
      push_cast
      omega
    have ht4 : T1.take 4 = (T1 ++ c).take 4 :=
      (List.take_append_of_le_length h4).symm
    have ht2 : T1.take 2 = (T1 ++ c).take 2 :=
      (List.take_append_of_le_length (by omega)).symm
    have hdropNP : ∀ k, k ≤ 4 → T1.drop k ++ c = (T1 ++ c).drop k := by
      intro k hk
      rw [List.drop_append_eq_append_drop, (by omega : k - T1.length = 0),
        List.drop_zero]
    simp only [stripBoundary, if_neg hcond]
    by_cases hb4 : (T1 ++ c).take 4 = [45, 45, 13, 10]
    · rw [if_pos (show ((X ++ bd ++ T1).drop (X.length + bd.length)).take 4
          = [45, 45, 13, 10] by rw [hdropS, ht4]; exact hb4)]
      refine ⟨by simp [hasTrailer, hb4], htakeX, ?_⟩
      rw [bufPut_content, ← hc, stripTrailer, trailerLen, if_pos hb4,
        ← List.drop_drop, hdropS]
      exact hdropNP 4 (le_refl 4)
    · rw [if_neg (show ¬ ((X ++ bd ++ T1).drop (X.length + bd.length)).take 4
          = [45, 45, 13, 10] by rw [hdropS, ht4]; exact hb4)]
      by_cases hb2 : (T1 ++ c).take 2 = [13, 10]
      · rw [if_pos (show ((X ++ bd ++ T1).drop (X.length + bd.length)).take 2
            = [13, 10] by rw [hdropS, ht2]; exact hb2)]
        refine ⟨by simp [hasTrailer, hb4], htakeX, ?_⟩
        rw [bufPut_content, ← hc, stripTrailer, trailerLen, if_neg hb4, if_pos hb2,
          ← List.drop_drop, hdropS]
        exact hdropNP 2 (by omega)
      · rw [if_neg (show ¬ ((X ++ bd ++ T1).drop (X.length + bd.length)).take 2
            = [13, 10] by rw [hdropS, ht2]; exact hb2)]
        refine ⟨by simp [hasTrailer, hb4], htakeX, ?_⟩
        rw [bufPut_content, ← hc, stripTrailer, trailerLen, if_neg hb4, if_neg hb2,
          hdropS, List.drop_zero]
  · push_neg at h4
    have hcond : (X.length : Int) + bd.length > ((X ++ bd ++ T1).length : Int) - 4 := by
      rw [hbuflen]
      push_cast
      omega
    obtain ⟨hp1, hp2⟩ := bufRead_spec_nonneg inner 4 (by omega)
    have hp1' : (bufRead inner 4).1 = c.take 4 := by
      rw [hp1, ← hc]
      rfl
    have hp2' : bufContent (bufRead inner 4).2 = c.drop 4 := by
      rw [hp2, ← hc]
      rfl
    have hbuf : (X ++ bd ++ T1) ++ (bufRead inner 4).1
        = (X ++ bd) ++ (T1 ++ c.take 4) := by
      rw [hp1', List.append_assoc]
    have hdropS2 : ((X ++ bd) ++ (T1 ++ c.take 4)).drop (X.length + bd.length)
        = T1 ++ c.take 4 := by
      rw [show X.length + bd.length = (X ++ bd).length from (List.length_append _ _).symm,
        List.drop_left]
    have htakeX2 : ((X ++ bd) ++ (T1 ++ c.take 4)).take X.length = X := by
      rw [List.append_assoc, List.take_append_of_le_length (le_refl _), List.take_length]
    simp only [stripBoundary, if_pos hcond, hbuf]
    by_cases hb4 : (T1 ++ c).take 4 = [45, 45, 13, 10]
    · rw [if_pos (show (((X ++ bd) ++ (T1 ++ c.take 4)).drop (X.length + bd.length)).take 4
          = [45, 45, 13, 10] by rw [hdropS2, take_append_take T1 c 4 4 (le_refl 4)]; exact hb4)]
      refine ⟨by simp [hasTrailer, hb4], htakeX2, ?_⟩
      rw [bufPut_content, hp2', stripTrailer, trailerLen, if_pos hb4,
        ← List.drop_drop, hdropS2]
      exact append_take_drop_glue T1 c 4 4 (le_refl 4)
    · rw [if_neg (show ¬ (((X ++ bd) ++ (T1 ++ c.take 4)).drop (X.length + bd.length)).take 4
          = [45, 45, 13, 10] by rw [hdropS2, take_append_take T1 c 4 4 (le_refl 4)]; exact hb4)]
      by_cases hb2 : (T1 ++ c).take 2 = [13, 10]
      · rw [if_pos (show (((X ++ bd) ++ (T1 ++ c.take 4)).drop (X.length + bd.length)).take 2
            = [13, 10] by rw [hdropS2, take_append_take T1 c 4 2 (by omega)]; exact hb2)]
        refine ⟨by simp [hasTrailer, hb4], htakeX2, ?_⟩
        rw [bufPut_content, hp2', stripTrailer, trailerLen, if_neg hb4, if_pos hb2,
          ← List.drop_drop, hdropS2]
        exact append_take_drop_glue T1 c 4 2 (by omega)
      · rw [if_neg (show ¬ (((X ++ bd) ++ (T1 ++ c.take 4)).drop (X.length + bd.length)).take 2
            = [13, 10] by rw [hdropS2, take_append_take T1 c 4 2 (by omega)]; exact hb2)]
        refine ⟨by simp [hasTrailer, hb4], htakeX2, ?_⟩
        rw [bufPut_content, hp2', stripTrailer, trailerLen, if_neg hb4, if_neg hb2,
          hdropS2, List.drop_zero]
        exact append_take_drop_glue T1 c 4 0 (by omega)

/-! ### BoundaryReader read-loop lemmas -/

theorem bufAvail_read_nonneg (st : BufReader) (m : Int) (hm : 0 ≤ m) :
    bufAvail (bufRead st m).2 + (bufRead st m).1.length = bufAvail st := by
  obtain ⟨h1, h2⟩ := bufRead_spec_nonneg st m hm
  rw [bufAvail, bufAvail, h1, h2, List.length_take, List.length_drop]
  omega

theorem readNextBlock_neg (bd : Bytes) (n : Int) (buf : Bytes) (inner : BufReader)
    (hn : n < 0) : readNextBlock bd n buf inner = bufRead inner 8192 := by
  simp only [readNextBlock, if_pos hn]

theorem full_take_decomp (A' M T : Bytes) (k : Nat)
    (hk : A'.length + M.length ≤ k) :
    (A' ++ M ++ T).take k = A' ++ M ++ T.take (k - A'.length - M.length) := by
  rw [show A' ++ M ++ T = (A' ++ M) ++ T from rfl,
    List.take_append_eq_append_take,
    List.take_of_length_le (by rw [List.length_append]; omega),
    List.length_append,
    show k - (A'.length + M.length) = k - A'.length - M.length from by omega]

theorem full_drop_decomp (A' M T : Bytes) (k : Nat)
    (hk : A'.length + M.length ≤ k) :
    (A' ++ M ++ T).drop k = T.drop (k - A'.length - M.length) := by
  rw [show A' ++ M ++ T = (A' ++ M) ++ T from rfl,
    List.drop_append_eq_append_drop,
    List.drop_of_length_le (by rw [List.length_append]; omega),
    List.length_append,
    show k - (A'.length + M.length) = k - A'.length - M.length from by omega]
  simp

/-- Main loop of `read(-1)` from any mid-scan state: it always finds the
marker, returns the bytes before it and leaves the inner reader holding the
trailer-stripped tail. -/
theorem bndReadLoop_neg (M A' T : Bytes) (n : Int) (hn : n < 0) (hM : M ≠ [])
    (hNE : ∀ q < A'.length, ¬ occursAt M (A' ++ M ++ T) q) :
    ∀ (fuel : Nat) (buf data : Bytes) (inner : BufReader),
    buf ++ (data ++ bufContent inner) = A' ++ M ++ T →
    buf.length < A'.length + M.length →
    (data = [] → bufContent inner = []) →
    bufAvail inner + 1 ≤ fuel →
    (bndReadLoop M n fuel buf data inner).1 = true ∧
    (bndReadLoop M n fuel buf data inner).2.1 = A' ∧
    bufContent (bndReadLoop M n fuel buf data inner).2.2 = stripTrailer T := by
  have hL : 0 < M.length := List.length_pos.mpr hM
  intro fuel
  induction fuel with
  | zero =>
      intro buf data inner _ _ _ hfuel
      exact absurd hfuel (by omega)
  | succ f ih =>
      intro buf data inner hI1 hI3 hI6 hfuel
      have hflen : (A' ++ M ++ T).length = A'.length + M.length + T.length := by
        simp [List.length_append]
        omega
      by_cases hd : data = []
      · exfalso
        have hce := hI6 hd
        rw [hd, hce] at hI1
        simp only [List.nil_append, List.append_nil] at hI1
        have := congrArg List.length hI1
        omega
      · have hdl : 0 < data.length := List.length_pos.mpr hd
        have hassoc : (buf ++ data) ++ bufContent inner = A' ++ M ++ T := by
          rw [List.append_assoc]
          exact hI1
        have hblen : (buf ++ data).length = buf.length + data.length :=
          List.length_append _ _
        set k := (buf ++ data).length with hkdef
        have hpre : buf ++ data = (A' ++ M ++ T).take k := prefix_take hassoc
        have hsuf : bufContent inner = (A' ++ M ++ T).drop k := suffix_drop hassoc
        have hsidx : k - data.length - (M.length - 1) ≤ A'.length := by omega
        simp only [bndReadLoop]
        rw [if_pos ⟨hdl, Or.inl hn⟩]
        by_cases hfit : A'.length + M.length ≤ k
        · rw [show findSub M (buf ++ data) ((buf ++ data).length - data.length
              - (M.length - 1)) = some A'.length from
            findSub_finds_marker M A' T (buf ++ data) _ hpre hNE
              (by rw [← hkdef]; exact hfit) (by rw [← hkdef]; exact hsidx)]
          dsimp only
          rw [hpre, full_take_decomp A' M T k hfit]
          obtain ⟨s1, s2, s3⟩ :=
            stripBoundary_spec M A' (T.take (k - A'.length - M.length)) inner
          refine ⟨rfl, s2, ?_⟩
          rw [s3, hsuf, full_drop_decomp A' M T k hfit, List.take_append_drop]
        · push_neg at hfit
          rw [findSub_prefix_none M A' T (buf ++ data) _ hM hpre hNE
            (by rw [← hkdef]; exact hfit)]
          dsimp only
          rw [readNextBlock_neg M n (buf ++ data) inner hn]
          have hcne : bufContent inner ≠ [] := by
            intro h
            rw [h] at hassoc
            have := congrArg List.length hassoc
            simp only [List.append_nil] at this
            omega
          obtain ⟨e1, e2⟩ := bufRead_spec_nonneg inner 8192 (by omega)
          have hsplit : (bufRead inner 8192).1 ++ bufContent (bufRead inner 8192).2
              = bufContent inner := by
            rw [e1, e2, List.take_append_drop]
          have hd1 : (bufRead inner 8192).1 ≠ [] := by
            rw [e1]
            intro h
            rcases List.take_eq_nil_iff.mp h with h' | h'
            · exact absurd h' (by norm_num)
            · exact hcne h'
          have havail := bufAvail_read_nonneg inner 8192 (by omega)
          have hdlen : 0 < (bufRead inner 8192).1.length := List.length_pos.mpr hd1
          exact ih (buf ++ data) (bufRead inner 8192).1 (bufRead inner 8192).2
            (by rw [List.append_assoc] at hassoc ⊢
                rw [show (bufRead inner 8192).1 ++ bufContent (bufRead inner 8192).2
                  = bufContent inner from hsplit] at *
                exact hassoc)
            (by rw [← hkdef]; exact hfit)
            (fun h => absurd h hd1)
            (by omega)

theorem rnb_fresh (bd : Bytes) (n : Int) (inner : BufReader) (hn : 0 ≤ n) :
    readNextBlock bd n [] inner =
      bufRead inner (if n < 2 * (bd.length : Int) then n + bd.length else n) := by
  simp only [readNextBlock, if_neg (not_lt.mpr hn), List.length_nil,
    Nat.cast_zero, sub_zero, max_eq_left hn]

theorem rnb_later (bd : Bytes) (n : Int) (bufX : Bytes) (inner : BufReader)
    (hn : 0 ≤ n) (hL : bd ≠ []) (hlen : n ≤ (bufX.length : Int)) :
    readNextBlock bd n bufX inner = bufRead inner (bd.length : Int) := by
  have hLp : 0 < bd.length := List.length_pos.mpr hL
  simp only [readNextBlock, if_neg (not_lt.mpr hn),
    max_eq_right (by omega : n - ((bufX.length : Nat) : Int) ≤ 0)]
  rw [if_pos (by omega : (0 : Int) < 2 * ((bd.length : Nat) : Int))]
  norm_num

/-- One loop iteration that finds the marker: valid for any `n`. -/
theorem bndReadLoop_found (M A' T : Bytes) (n : Int) (hM : M ≠ [])
    (hNE : ∀ q < A'.length, ¬ occursAt M (A' ++ M ++ T) q)
    (f : Nat) (buf data : Bytes) (inner : BufReader)
    (hI1 : buf ++ (data ++ bufContent inner) = A' ++ M ++ T)
    (hI3 : buf.length < A'.length + M.length)
    (hdl : 0 < data.length)
    (hguard : n < 0 ∨ (buf.length : Int) < n + M.length)
    (hfit : A'.length + M.length ≤ buf.length + data.length) :
    (bndReadLoop M n (f+1) buf data inner).1 = true ∧
    (bndReadLoop M n (f+1) buf data inner).2.1 = A' ∧
    bufContent (bndReadLoop M n (f+1) buf data inner).2.2 = stripTrailer T := by
  have hL : 0 < M.length := List.length_pos.mpr hM
  have hassoc : (buf ++ data) ++ bufContent inner = A' ++ M ++ T := by
    rw [List.append_assoc]
    exact hI1
  have hblen : (buf ++ data).length = buf.length + data.length :=
    List.length_append _ _
  set k := (buf ++ data).length with hkdef
  have hpre : buf ++ data = (A' ++ M ++ T).take k := prefix_take hassoc
  have hsuf : bufContent inner = (A' ++ M ++ T).drop k := suffix_drop hassoc
  have hsidx : k - data.length - (M.length - 1) ≤ A'.length := by omega
  have hfit' : A'.length + M.length ≤ k := by omega
  simp only [bndReadLoop]
  rw [if_pos ⟨hdl, hguard⟩]
  rw [show findSub M (buf ++ data) ((buf ++ data).length - data.length
      - (M.length - 1)) = some A'.length from
    findSub_finds_marker M A' T (buf ++ data) _ hpre hNE
      (by rw [← hkdef]; exact hfit') (by rw [← hkdef]; exact hsidx)]
  dsimp only
  rw [hpre, full_take_decomp A' M T k hfit']
  obtain ⟨s1, s2, s3⟩ :=
    stripBoundary_spec M A' (T.take (k - A'.length - M.length)) inner
  refine ⟨rfl, s2, ?_⟩
  rw [s3, hsuf, full_drop_decomp A' M T k hfit', List.take_append_drop]

/-- One loop iteration that does not yet see the marker: reads the next
block and recurses. -/
theorem bndReadLoop_advance (M A' T : Bytes) (n : Int) (hM : M ≠ [])
    (hNE : ∀ q < A'.length, ¬ occursAt M (A' ++ M ++ T) q)
    (f : Nat) (buf data : Bytes) (inner : BufReader)
    (hI1 : buf ++ (data ++ bufContent inner) = A' ++ M ++ T)
    (hdl : 0 < data.length)
    (hguard : n < 0 ∨ (buf.length : Int) < n + M.length)
    (hshort : buf.length + data.length < A'.length + M.length) :
    bndReadLoop M n (f+1) buf data inner =
      bndReadLoop M n f (buf ++ data)
        (readNextBlock M n (buf ++ data) inner).1
        (readNextBlock M n (buf ++ data) inner).2 := by
  have hassoc : (buf ++ data) ++ bufContent inner = A' ++ M ++ T := by
    rw [List.append_assoc]
    exact hI1
  have hblen : (buf ++ data).length = buf.length + data.length :=
    List.length_append _ _
  have hpre : buf ++ data = (A' ++ M ++ T).take (buf ++ data).length :=
    prefix_take hassoc
  simp only [bndReadLoop]
  rw [if_pos ⟨hdl, hguard⟩]
  rw [findSub_prefix_none M A' T (buf ++ data) _ hM hpre hNE (by omega)]

/-- A loop call whose guard fails (any fuel): appends the pending data and
exits without the boundary hit. -/
theorem bndReadLoop_exit (M : Bytes) (n : Int) (fuel : Nat)
    (buf data : Bytes) (inner : BufReader)
    (hguard : ¬ (0 < data.length ∧ (n < 0 ∨ (buf.length : Int) < n + M.length))) :
    bndReadLoop M n fuel buf data inner = (false, buf ++ data, inner) := by
  cases fuel with
  | zero => rfl
  | succ f =>
      simp only [bndReadLoop]
      rw [if_neg hguard]

/-- `read(-1)` on a not-yet-hit reader whose remaining content is
`A' ++ marker ++ T` (marker not occurring earlier): returns all of `A'`,
sets the hit flag, and leaves the inner reader holding `T` with its leading
trailer stripped. -/
theorem bndRead_step_neg (st : BndReader) (A' T : Bytes) (n : Int) (hn : n < 0)
    (hhit : st.hit = false) (hM : st.boundary ≠ [])
    (hc : bufContent st.inner = A' ++ st.boundary ++ T)
    (hNE : ∀ q < A'.length, ¬ occursAt st.boundary (A' ++ st.boundary ++ T) q) :
    (bndRead st n).1 = A' ∧
    (bndRead st n).2.hit = true ∧
    (bndRead st n).2.boundary = st.boundary ∧
    bufContent (bndRead st n).2.inner = stripTrailer T := by
  have hL : 0 < st.boundary.length := List.length_pos.mpr hM
  simp only [bndRead]
  rw [if_neg (by rw [hhit]; exact Bool.false_ne_true)]
  rw [readNextBlock_neg st.boundary n [] st.inner hn]
  obtain ⟨e1, e2⟩ := bufRead_spec_nonneg st.inner 8192 (by omega)
  have hsplit : (bufRead st.inner 8192).1 ++ bufContent (bufRead st.inner 8192).2
      = bufContent st.inner := by
    rw [e1, e2, List.take_append_drop]
  have hI6 : (bufRead st.inner 8192).1 = [] → bufContent (bufRead st.inner 8192).2 = [] := by
    intro h
    rw [e1] at h
    rcases List.take_eq_nil_iff.mp h with h' | h'
    · exact absurd h' (by norm_num)
    · rw [e2, h']
      simp
  obtain ⟨l1, l2, l3⟩ := bndReadLoop_neg st.boundary A' T n hn hM hNE
    (bufAvail (bufRead st.inner 8192).2 + 1) [] (bufRead st.inner 8192).1
    (bufRead st.inner 8192).2
    (by rw [List.nil_append, hsplit, hc])
    (by simp only [List.length_nil]; omega) hI6 (le_refl _)
  rw [l2]
  rw [if_neg (fun h => absurd h.1 (not_le.mpr hn))]
  exact ⟨rfl, by dsimp only; rw [l1], rfl, by dsimp only; rw [l3]⟩

/-- `read(n)` with `0 ≤ n` and `|A'| ≤ n` behaves like `read(-1)`: the
boundary is reached within this call. -/
theorem bndRead_step_big (st : BndReader) (A' T : Bytes) (n : Int)
    (hhit : st.hit = false) (hM : st.boundary ≠ [])
    (hc : bufContent st.inner = A' ++ st.boundary ++ T)
    (hNE : ∀ q < A'.length, ¬ occursAt st.boundary (A' ++ st.boundary ++ T) q)
    (hn : 0 ≤ n) (hbig : A'.length ≤ n.toNat) :
    (bndRead st n).1 = A' ∧
    (bndRead st n).2.hit = true ∧
    (bndRead st n).2.boundary = st.boundary ∧
    bufContent (bndRead st n).2.inner = stripTrailer T := by
  have hL : 0 < st.boundary.length := List.length_pos.mpr hM
  have havail : (bufContent st.inner).length
      = A'.length + st.boundary.length + T.length := by
    rw [hc]
    simp [List.length_append]
    omega
  simp only [bndRead]
  rw [if_neg (by rw [hhit]; exact Bool.false_ne_true)]
  rw [rnb_fresh st.boundary n st.inner hn]
  set t1 : Int := if n < 2 * (st.boundary.length : Int) then
    n + st.boundary.length else n with ht1
  have ht1n : 0 ≤ t1 := by
    rw [ht1]
    split <;> omega
  have ht1ge : n.toNat ≤ t1.toNat := by
    rw [ht1]
    split <;> omega
  obtain ⟨e1, e2⟩ := bufRead_spec_nonneg st.inner t1 ht1n
  have hsplit1 : (bufRead st.inner t1).1 ++ bufContent (bufRead st.inner t1).2
      = bufContent st.inner := by
    rw [e1, e2, List.take_append_drop]
  have hlen1 : (bufRead st.inner t1).1.length
      = min t1.toNat (bufContent st.inner).length := by
    rw [e1, List.length_take]
  have havr := bufAvail_read_nonneg st.inner t1 ht1n
  have havail' : bufAvail st.inner = (bufContent st.inner).length := rfl
  by_cases hfit1 : A'.length + st.boundary.length ≤ (bufRead st.inner t1).1.length
  · have hdl1 : 0 < (bufRead st.inner t1).1.length := by omega
    obtain ⟨l1, l2, l3⟩ := bndReadLoop_found st.boundary A' T n hM hNE
      (bufAvail (bufRead st.inner t1).2) [] (bufRead st.inner t1).1
      (bufRead st.inner t1).2
      (by rw [List.nil_append, hsplit1, hc])
      (by simp only [List.length_nil]; omega)
      hdl1
      (Or.inr (by simp only [List.length_nil]; push_cast; omega))
      (by simp only [List.length_nil, Nat.zero_add]; exact hfit1)
    rw [l2]
    rw [if_neg (by omega : ¬ (0 ≤ n ∧ n < ((A'.length : Nat) : Int)))]
    exact ⟨rfl, by dsimp only; rw [l1], rfl, by dsimp only; rw [l3]⟩
  · push_neg at hfit1
    have hnlt : n.toNat < (bufContent st.inner).length := by
      rcases le_or_lt (bufContent st.inner).length n.toNat with h | h
      · exfalso
        have hminav : min t1.toNat (bufContent st.inner).length
            = (bufContent st.inner).length := by omega
        rw [hminav] at hlen1
        omega
      · exact h
    have ht1eq : t1 = n := by
      rw [ht1]
      by_cases h2L : n < 2 * (st.boundary.length : Int)
      · exfalso
        have hto : t1.toNat = n.toNat + st.boundary.length := by
          rw [ht1, if_pos h2L]
          omega
        rw [hto] at hlen1
        omega
      · rw [if_neg h2L]
    have hd1n : (bufRead st.inner t1).1.length = n.toNat := by
      rw [hlen1, ht1eq]
      omega
    rw [bndReadLoop_advance st.boundary A' T n hM hNE
      (bufAvail (bufRead st.inner t1).2) [] (bufRead st.inner t1).1
      (bufRead st.inner t1).2
      (by rw [List.nil_append, hsplit1, hc])
      (by omega)
      (Or.inr (by simp only [List.length_nil]; push_cast; omega))
      (by simp only [List.length_nil, Nat.zero_add]; omega)]
    simp only [List.nil_append]
    rw [rnb_later st.boundary n (bufRead st.inner t1).1 (bufRead st.inner t1).2
      hn hM (by rw [hd1n]; omega)]
    obtain ⟨f1, f2⟩ := bufRead_spec_nonneg (bufRead st.inner t1).2
      (st.boundary.length : Int) (by omega)
    have hsplit2 : (bufRead (bufRead st.inner t1).2 (st.boundary.length : Int)).1
        ++ bufContent (bufRead (bufRead st.inner t1).2 (st.boundary.length : Int)).2
        = bufContent (bufRead st.inner t1).2 := by
      rw [f1, f2, List.take_append_drop]
    have hlen2 : (bufRead (bufRead st.inner t1).2 (st.boundary.length : Int)).1.length
        = min st.boundary.length (bufContent (bufRead st.inner t1).2).length := by
      rw [f1, List.length_take, Int.toNat_natCast]
    have havail1 : (bufContent (bufRead st.inner t1).2).length
        = (bufContent st.inner).length - n.toNat := by
      rw [bufAvail, bufAvail] at havr
      omega
    have hfuel1 : 1 ≤ bufAvail (bufRead st.inner t1).2 := by
      rw [bufAvail, havail1]
      omega
    have hdl2 : 0 < (bufRead (bufRead st.inner t1).2
        (st.boundary.length : Int)).1.length := by
      rw [hlen2, havail1]
      omega
    rw [show bufAvail (bufRead st.inner t1).2
        = (bufAvail (bufRead st.inner t1).2 - 1) + 1 from by omega]
    obtain ⟨l1, l2, l3⟩ := bndReadLoop_found st.boundary A' T n hM hNE
      (bufAvail (bufRead st.inner t1).2 - 1) (bufRead st.inner t1).1
      (bufRead (bufRead st.inner t1).2 (st.boundary.length : Int)).1
      (bufRead (bufRead st.inner t1).2 (st.boundary.length : Int)).2
      (by rw [hsplit2, hsplit1, hc])
      (by omega)
      hdl2
      (Or.inr (by rw [hd1n]; omega))
      (by rw [hd1n, hlen2, havail1]; omega)
    rw [l2]
    rw [if_neg (by omega : ¬ (0 ≤ n ∧ n < ((A'.length : Nat) : Int)))]
    exact ⟨rfl, by dsimp only; rw [l1], rfl, by dsimp only; rw [l3]⟩

theorem take_of_full (A' M T : Bytes) (n' : Nat) (h : n' ≤ A'.length) :
    (A' ++ M ++ T).take n' = A'.take n' := by
  rw [List.append_assoc, List.take_append_of_le_length h]

theorem drop_of_full (A' M T : Bytes) (n' : Nat) (h : n' ≤ A'.length) :
    (A' ++ M ++ T).drop n' = A'.drop n' ++ M ++ T := by
  rw [List.append_assoc, List.drop_append_eq_append_drop,
    (by omega : n' - A'.length = 0), List.drop_zero, ← List.append_assoc]

/-- `read(n)` with `0 ≤ n < |A'|`: the marker is not reached; the first `n`
bytes of `A'` are returned, the overread tail is pushed back, and the
remaining content is exactly `A'.drop n ++ marker ++ T`. -/
theorem bndRead_step_small (st : BndReader) (A' T : Bytes) (n : Int)
    (hhit : st.hit = false) (hM : st.boundary ≠ [])
    (hc : bufContent st.inner = A' ++ st.boundary ++ T)
    (hNE : ∀ q < A'.length, ¬ occursAt st.boundary (A' ++ st.boundary ++ T) q)
    (hn : 0 ≤ n) (hsmall : n.toNat < A'.length) :
    (bndRead st n).1 = A'.take n.toNat ∧
    (bndRead st n).2.hit = false ∧
    (bndRead st n).2.boundary = st.boundary ∧
    bufContent (bndRead st n).2.inner = A'.drop n.toNat ++ st.boundary ++ T := by
  have hL : 0 < st.boundary.length := List.length_pos.mpr hM
  have havail : (bufContent st.inner).length
      = A'.length + st.boundary.length + T.length := by
    rw [hc]
    simp [List.length_append]
    omega
  simp only [bndRead]
  rw [if_neg (by rw [hhit]; exact Bool.false_ne_true)]
  rw [rnb_fresh st.boundary n st.inner hn]
  set t1 : Int := if n < 2 * (st.boundary.length : Int) then
    n + st.boundary.length else n with ht1
  have ht1n : 0 ≤ t1 := by
    rw [ht1]
    split <;> omega
  obtain ⟨e1, e2⟩ := bufRead_spec_nonneg st.inner t1 ht1n
  have hsplit1 : (bufRead st.inner t1).1 ++ bufContent (bufRead st.inner t1).2
      = bufContent st.inner := by
    rw [e1, e2, List.take_append_drop]
  have hlen1 : (bufRead st.inner t1).1.length
      = min t1.toNat (bufContent st.inner).length := by
    rw [e1, List.length_take]
  have havr := bufAvail_read_nonneg st.inner t1 ht1n
  have hcont1 : bufContent (bufRead st.inner t1).2
      = (bufContent st.inner).drop t1.toNat := e2
  obtain ⟨f1, f2⟩ := bufRead_spec_nonneg (bufRead st.inner t1).2
    (st.boundary.length : Int) (by omega)
  have hf1 : (bufRead (bufRead st.inner t1).2 (st.boundary.length : Int)).1
      = ((bufContent st.inner).drop t1.toNat).take st.boundary.length := by
    rw [f1, Int.toNat_natCast, hcont1]
  have hf2 : bufContent (bufRead (bufRead st.inner t1).2 (st.boundary.length : Int)).2
      = (bufContent st.inner).drop (t1.toNat + st.boundary.length) := by
    rw [f2, Int.toNat_natCast, hcont1, List.drop_drop]
  have hbufout : (bufRead st.inner t1).1
      ++ (bufRead (bufRead st.inner t1).2 (st.boundary.length : Int)).1
      = (bufContent st.inner).take (t1.toNat + st.boundary.length) := by
    rw [e1, hf1, List.take_add]
  by_cases h2L : n < 2 * (st.boundary.length : Int)
  · have ht1to : t1.toNat = n.toNat + st.boundary.length := by
      rw [ht1, if_pos h2L]
      omega
    have hd1len : (bufRead st.inner t1).1.length = n.toNat + st.boundary.length := by
      rw [hlen1, ht1to]
      omega
    rw [bndReadLoop_advance st.boundary A' T n hM hNE
      (bufAvail (bufRead st.inner t1).2) [] (bufRead st.inner t1).1
      (bufRead st.inner t1).2
      (by rw [List.nil_append, hsplit1, hc])
      (by omega)
      (Or.inr (by simp only [List.length_nil]; push_cast; omega))
      (by simp only [List.length_nil, Nat.zero_add]; omega)]
    simp only [List.nil_append]
    rw [rnb_later st.boundary n (bufRead st.inner t1).1 (bufRead st.inner t1).2
      hn hM (by rw [hd1len]; push_cast; omega)]
    rw [bndReadLoop_exit st.boundary n _ _ _ _
      (by rintro ⟨-, h | h⟩
          · omega
          · rw [hd1len] at h
            push_cast at h
            omega)]
    have hKn : n.toNat ≤ t1.toNat + st.boundary.length := by omega
    have houtlen : n.toNat <
        ((bufRead st.inner t1).1
          ++ (bufRead (bufRead st.inner t1).2 (st.boundary.length : Int)).1).length := by
      rw [List.length_append, hd1len]
      omega
    rw [if_pos ⟨hn, by push_cast at houtlen ⊢; omega⟩]
    refine ⟨?_, rfl, rfl, ?_⟩
    · dsimp only
      rw [hbufout, List.take_take, min_eq_left hKn, hc,
        take_of_full A' st.boundary T n.toNat (by omega)]
    · dsimp only
      rw [bufPut_content, hbufout, hf2,
        take_drop_glue (bufContent st.inner) n.toNat
          (t1.toNat + st.boundary.length) hKn,
        hc, drop_of_full A' st.boundary T n.toNat (by omega)]
  · have ht1to : t1.toNat = n.toNat := by
      rw [ht1, if_neg h2L]
    have hd1len : (bufRead st.inner t1).1.length = n.toNat := by
      rw [hlen1, ht1to]
      omega
    have havail1 : (bufContent (bufRead st.inner t1).2).length
        = (bufContent st.inner).length - n.toNat := by
      rw [hcont1, List.length_drop, ht1to]
    have hd2len : (bufRead (bufRead st.inner t1).2
        (st.boundary.length : Int)).1.length = st.boundary.length := by
      rw [hf1, List.length_take, List.length_drop, ht1to]
      omega
    rw [bndReadLoop_advance st.boundary A' T n hM hNE
      (bufAvail (bufRead st.inner t1).2) [] (bufRead st.inner t1).1
      (bufRead st.inner t1).2
      (by rw [List.nil_append, hsplit1, hc])
      (by omega)
      (Or.inr (by simp only [List.length_nil]; push_cast; omega))
      (by simp only [List.length_nil, Nat.zero_add]; omega)]
    simp only [List.nil_append]
    rw [rnb_later st.boundary n (bufRead st.inner t1).1 (bufRead st.inner t1).2
      hn hM (by rw [hd1len]; omega)]
    have hfuel1 : 2 ≤ bufAvail (bufRead st.inner t1).2 := by
      rw [bufAvail, havail1]
      omega
    rw [show bufAvail (bufRead st.inner t1).2
        = (bufAvail (bufRead st.inner t1).2 - 1) + 1 from by omega]
    rw [bndReadLoop_advance st.boundary A' T n hM hNE
      (bufAvail (bufRead st.inner t1).2 - 1) (bufRead st.inner t1).1
      (bufRead (bufRead st.inner t1).2 (st.boundary.length : Int)).1
      (bufRead (bufRead st.inner t1).2 (st.boundary.length : Int)).2
      (by rw [f1, f2, List.take_append_drop, hsplit1, hc])
      (by omega)
      (Or.inr (by rw [hd1len]; omega))
      (by rw [hd1len, hd2len]; omega)]
    rw [rnb_later st.boundary n
      ((bufRead st.inner t1).1
        ++ (bufRead (bufRead st.inner t1).2 (st.boundary.length : Int)).1) _
      hn hM (by rw [List.length_append, hd1len]; push_cast; omega)]
    rw [bndReadLoop_exit st.boundary n _ _ _ _
      (by rintro ⟨-, h | h⟩
          · omega
          · rw [List.length_append, hd1len, hd2len] at h
            push_cast at h
            omega)]
    have hf3 : bufContent (bufRead (bufRead (bufRead st.inner t1).2
        (st.boundary.length : Int)).2 (st.boundary.length : Int)).2
        = (bufContent st.inner).drop
            (t1.toNat + st.boundary.length + st.boundary.length) := by
      obtain ⟨g1, g2⟩ := bufRead_spec_nonneg (bufRead (bufRead st.inner t1).2
        (st.boundary.length : Int)).2 (st.boundary.length : Int) (by omega)
      rw [g2, Int.toNat_natCast, hf2, List.drop_drop]
    have hg1 : (bufRead (bufRead (bufRead st.inner t1).2
        (st.boundary.length : Int)).2 (st.boundary.length : Int)).1
        = ((bufContent st.inner).drop (t1.toNat + st.boundary.length)).take
            st.boundary.length := by
      obtain ⟨g1, g2⟩ := bufRead_spec_nonneg (bufRead (bufRead st.inner t1).2
        (st.boundary.length : Int)).2 (st.boundary.length : Int) (by omega)
      rw [g1, Int.toNat_natCast, hf2]
    have hbufout3 : ((bufRead st.inner t1).1
        ++ (bufRead (bufRead st.inner t1).2 (st.boundary.length : Int)).1)
        ++ (bufRead (bufRead (bufRead st.inner t1).2
            (st.boundary.length : Int)).2 (st.boundary.length : Int)).1
        = (bufContent st.inner).take
            (t1.toNat + st.boundary.length + st.boundary.length) := by
      rw [hbufout, hg1, ← List.take_add]
    have hKn : n.toNat ≤ t1.toNat + st.boundary.length + st.boundary.length := by
      omega
    have houtlen : n.toNat < (((bufRead st.inner t1).1
        ++ (bufRead (bufRead st.inner t1).2 (st.boundary.length : Int)).1)
        ++ (bufRead (bufRead (bufRead st.inner t1).2
            (st.boundary.length : Int)).2 (st.boundary.length : Int)).1).length := by
      rw [List.length_append, List.length_append, hd1len, hd2len]
      omega
    rw [if_pos ⟨hn, by push_cast at houtlen ⊢; omega⟩]
    refine ⟨?_, rfl, rfl, ?_⟩
    · dsimp only
      rw [hbufout3, List.take_take, min_eq_left hKn, hc,
        take_of_full A' st.boundary T n.toNat (by omega)]
    · dsimp only
      rw [bufPut_content, hbufout3, hf3,
        take_drop_glue (bufContent st.inner) n.toNat
          (t1.toNat + st.boundary.length + st.boundary.length) hKn,
        hc, drop_of_full A' st.boundary T n.toNat (by omega)]

theorem bndStep_inv (M A T : Bytes) (hM : M ≠ [])
    (hNE : ∀ q < A.length, ¬ occursAt M (A ++ M ++ T) q)
    (st : BndReader) (done : Bytes) (n : Int) (hn : n ≠ 0)
    (hinv : bndInv M A T st done) :
    bndInv M A T (bndRead st n).2 (done ++ (bndRead st n).1) ∧
    ((bndRead st n).1 = [] → (bndRead st n).2.hit = true) := by
  obtain ⟨hbd, hcase⟩ := hinv
  rcases hcase with ⟨hhit, dA, hdA, hdone, hcont⟩ | ⟨hhit, hdone, hcont⟩
  · have hc : bufContent st.inner = A.drop dA ++ st.boundary ++ T := by
      rw [hbd]
      exact hcont
    have hNE' : ∀ q < (A.drop dA).length,
        ¬ occursAt st.boundary (A.drop dA ++ st.boundary ++ T) q := by
      intro q hq hocc
      rw [hbd] at hocc
      rw [← drop_of_full A M T dA hdA] at hocc
      rw [occursAt_drop_iff] at hocc
      exact hNE (dA + q) (by rw [List.length_drop] at hq; omega) hocc
    rcases lt_or_gt_of_ne hn with hneg | hpos
    · obtain ⟨o1, o2, o3, o4⟩ := bndRead_step_neg st (A.drop dA) T n hneg
        hhit (by rw [hbd]; exact hM) (by rw [hbd]; exact hcont) hNE'
      refine ⟨⟨by rw [o3, hbd], Or.inr ⟨o2, ?_, by rw [o4]⟩⟩, fun _ => o2⟩
      rw [o1, hdone, List.take_append_drop]
    · by_cases hbig : (A.drop dA).length ≤ n.toNat
      · obtain ⟨o1, o2, o3, o4⟩ := bndRead_step_big st (A.drop dA) T n
          hhit (by rw [hbd]; exact hM) (by rw [hbd]; exact hcont) hNE' (by omega) hbig
        refine ⟨⟨by rw [o3, hbd], Or.inr ⟨o2, ?_, by rw [o4]⟩⟩, fun _ => o2⟩
        rw [o1, hdone, List.take_append_drop]
      · push_neg at hbig
        obtain ⟨o1, o2, o3, o4⟩ := bndRead_step_small st (A.drop dA) T n
          hhit (by rw [hbd]; exact hM) (by rw [hbd]; exact hcont) hNE' (by omega) hbig
        constructor
        · refine ⟨by rw [o3, hbd], Or.inl ⟨o2, dA + n.toNat, ?_, ?_, ?_⟩⟩
          · rw [List.length_drop] at hbig
            omega
          · rw [o1, hdone, List.take_add]
          · rw [o4, hbd, List.drop_drop, Nat.add_comm]
        · intro h
          rw [o1] at h
          have := congrArg List.length h
          rw [List.length_take, List.length_nil] at this
          omega
  · have hread : bndRead st n = ([], st) := by
      rw [bndRead, if_pos hhit]
    rw [hread]
    exact ⟨⟨hbd, Or.inr ⟨hhit, by rw [List.append_nil]; exact hdone, hcont⟩⟩,
      fun _ => hhit⟩

theorem bndRun_length (st : BndReader) (ns : List Int) :
    (bndRun st ns).1.length = ns.length := by
  induction ns generalizing st with
  | nil => rfl
  | cons m ms ihm => simp [bndRun, ihm]

theorem bndRun_inv (M A T : Bytes) (hM : M ≠ [])
    (hNE : ∀ q < A.length, ¬ occursAt M (A ++ M ++ T) q) :
    ∀ (ns : List Int), (∀ n ∈ ns, n ≠ 0) →
    ∀ (st : BndReader) (done : Bytes), bndInv M A T st done →
    bndInv M A T (bndRun st ns).2 (done ++ (bndRun st ns).1.flatten) ∧
    ((bndRun st ns).1.getLast? = some [] → (bndRun st ns).2.hit = true) := by
  intro ns
  induction ns with
  | nil =>
      intro _ st done hinv
      refine ⟨by simpa [bndRun] using hinv, fun h => ?_⟩
      simp [bndRun] at h
  | cons n ns ih =>
      intro hns st done hinv
      have hn : n ≠ 0 := hns n (List.mem_cons_self _ _)
      have hns' : ∀ m ∈ ns, m ≠ 0 := fun m hm => hns m (List.mem_cons_of_mem _ hm)
      obtain ⟨hinv1, hempty1⟩ := bndStep_inv M A T hM hNE st done n hn hinv
      obtain ⟨hinv2, hlast2⟩ := ih hns' (bndRead st n).2 (done ++ (bndRead st n).1) hinv1
      have hrun : bndRun st (n :: ns) =
          ((bndRead st n).1 :: (bndRun (bndRead st n).2 ns).1,
            (bndRun (bndRead st n).2 ns).2) := rfl
      rw [hrun]
      constructor
      · dsimp only
        rw [List.flatten_cons, ← List.append_assoc]
        exact hinv2
      · dsimp only
        intro h
        rcases hr1 : (bndRun (bndRead st n).2 ns).1 with _ | ⟨b, bs⟩
        · have hns0 : ns = [] := by
            have hlen := bndRun_length (bndRead st n).2 ns
            rw [hr1] at hlen
            exact List.length_eq_zero.mp hlen.symm
          rw [hr1] at h
          have hout : (bndRead st n).1 = [] := by
            simpa [List.getLast?] using h
          have := hempty1 hout
          rw [hns0]
          simpa [bndRun] using this
        · rw [hr1] at h hlast2
          rw [getLast?_cons_of_ne_nil' _ _ (by simp)] at h
          exact hlast2 h

/-- C1 (corrected): for a non-empty boundary `B` and an inner stream
`A ++ marker ++ T` (`marker = "\r\n--" ++ B`), provided the marker does not
occur in the stream at any position inside `A` (the source searches for the
first marker occurrence, so an earlier overlap-induced occurrence preempts
the real one — see the counterexample), repeatedly calling `read` with any
nonzero amounts until a call returns empty yields exactly `A` in total, and
afterwards the inner reader holds exactly `T` with a leading `--\r\n` or
`\r\n` stripped. -/
theorem claim_C1_boundary_reader_total (B A T : Bytes) (ns : List Int)
    (st0 : BndReader)
    (hst0 : st0 = mkBoundaryReader ⟨[], A ++ ([13, 10, 45, 45] ++ B) ++ T⟩ B)
    (hNE : ∀ q < A.length,
      ¬ occursAt ([13, 10, 45, 45] ++ B) (A ++ ([13, 10, 45, 45] ++ B) ++ T) q)
    (hns : ∀ n ∈ ns, n ≠ 0)
    (hlast : (bndRun st0 ns).1.getLast? = some []) :
    (bndRun st0 ns).1.flatten = A ∧
    (bndRun st0 ns).2.hit = true ∧
    bufContent (bndRun st0 ns).2.inner = stripTrailer T := by
  have hM : ([13, 10, 45, 45] ++ B : Bytes) ≠ [] := by simp
  have hinv0 : bndInv ([13, 10, 45, 45] ++ B) A T st0 [] := by
    rw [hst0]
    refine ⟨rfl, Or.inl ⟨rfl, 0, Nat.zero_le _, by rw [List.take_zero], ?_⟩⟩
    rw [List.drop_zero]
    simp [mkBoundaryReader, bufContent]
  obtain ⟨hinv, hhit⟩ := bndRun_inv ([13, 10, 45, 45] ++ B) A T hM hNE ns hns
    st0 [] hinv0
  have hh := hhit hlast
  obtain ⟨hbd, hcase⟩ := hinv
  rcases hcase with ⟨hf, _⟩ | ⟨_, hdone, hcont⟩
  · rw [hf] at hh
    exact absurd hh (by simp)
  · rw [List.nil_append] at hdone
    exact ⟨hdone, hh, hcont⟩

theorem claim_C1_boundary_reader_total_witness :
    ((bndRun (mkBoundaryReader ⟨[], [97, 122] ++ ([13, 10, 45, 45] ++ [98])
        ++ [13, 10, 120]⟩ [98]) [-3, 5]).1.flatten = [97, 122] ∧
     (bndRun (mkBoundaryReader ⟨[], [97, 122] ++ ([13, 10, 45, 45] ++ [98])
        ++ [13, 10, 120]⟩ [98]) [-3, 5]).2.hit = true ∧
     bufContent (bndRun (mkBoundaryReader ⟨[], [97, 122] ++ ([13, 10, 45, 45]
        ++ [98]) ++ [13, 10, 120]⟩ [98]) [-3, 5]).2.inner
       = stripTrailer [13, 10, 120]) :=
  claim_C1_boundary_reader_total [98] [97, 122] [13, 10, 120] [-3, 5] _
    rfl (by decide) (by decide) (by decide)

/-- C1 counterexample: boundary `B = "\r\n--"`, stream
`A ++ marker ++ T` with `A = "\r\n--"` and `T = []`. The marker
`"\r\n--\r\n--"` then already occurs at offset 0, inside `A`, so the first
`read(-1)` returns empty with `A` never delivered: the original claim's
conclusion fails even though the stream has the required shape. -/
theorem claim_C1_boundary_reader_total_cex :
    (bndRun (mkBoundaryReader
        ⟨[], [13, 10, 45, 45] ++ ([13, 10, 45, 45] ++ [13, 10, 45, 45]) ++ []⟩
        [13, 10, 45, 45]) [-1, -1]).1.getLast? = some [] ∧
    ¬ ((bndRun (mkBoundaryReader
        ⟨[], [13, 10, 45, 45] ++ ([13, 10, 45, 45] ++ [13, 10, 45, 45]) ++ []⟩
        [13, 10, 45, 45]) [-1, -1]).1.flatten = [13, 10, 45, 45]) := by
  decide

/-- C10: for every `BufferedReader`, `LengthReader` and `BoundaryReader`
state — including a `LengthReader` with `remaining = 0` and a
`BoundaryReader` past its boundary — `readexactly(n)` with `n < 0` returns
the empty byte string without an incomplete-read failure and without
modifying the reader. -/
theorem claim_C10_readexactly_negative (b : BufReader) (l : LenReader)
    (bn : BndReader) (n : Int) (hn : n < 0) :
    bufReadexactly b n = .ok [] b ∧
    lenReadexactly l n = .ok [] l ∧
    bndReadexactly bn n = .ok [] bn := by
  refine ⟨?_, ?_, ?_⟩
  · unfold bufReadexactly
    rw [if_pos hn]
  · unfold lenReadexactly
    rw [if_pos hn]
  · unfold bndReadexactly
    rw [if_pos hn]

theorem claim_C10_readexactly_negative_witness :
    bufReadexactly ⟨[[1]], [2]⟩ (-1) = .ok [] ⟨[[1]], [2]⟩ ∧
    lenReadexactly ⟨⟨[], [97]⟩, 0⟩ (-1) = .ok [] ⟨⟨[], [97]⟩, 0⟩ ∧
    bndReadexactly ⟨⟨[], [98]⟩, [99], true⟩ (-1)
      = .ok [] ⟨⟨[], [98]⟩, [99], true⟩ :=
  claim_C10_readexactly_negative ⟨[[1]], [2]⟩ ⟨⟨[], [97]⟩, 0⟩
    ⟨⟨[], [98]⟩, [99], true⟩ (-1) (by decide)

/-- C8 (code-bug exhibit): inner stream `"x\r\n--b"` at EOF with boundary
`"b"`. `readline` reads the two lines `"x\r\n"` and `"--b"`, whose
concatenation contains the marker `"\r\n--b"` at index 1 with fewer than 4
bytes following it, so the padding branch of `_strip_boundary` is entered:
the first conjunct shows the marker search succeeds at index 1, the second
that the padding condition `bd_idx + len(marker) > len(buf) - 4` holds.
In the source this branch executes `buf.extend(padding)` on the immutable
`bytes` object that `readline` (unlike `read`, which passes a `bytearray`)
built with `b''.join`, raising `AttributeError` instead of returning the
bytes before the marker. -/
theorem claim_C8_readline_strip_crash :
    ((bufReadline ⟨[], [120, 13, 10, 45, 45, 98]⟩).1
      ++ (bufReadline (bufReadline ⟨[], [120, 13, 10, 45, 45, 98]⟩).2).1
      = [120, 13, 10, 45, 45, 98]) ∧
    (findSub (mkBoundaryReader ⟨[], [120, 13, 10, 45, 45, 98]⟩ [98]).boundary
        ((bufReadline ⟨[], [120, 13, 10, 45, 45, 98]⟩).1
          ++ (bufReadline (bufReadline ⟨[], [120, 13, 10, 45, 45, 98]⟩).2).1) 0
      = some 1) ∧
    ((1 : Int) +
        ((mkBoundaryReader ⟨[], [120, 13, 10, 45, 45, 98]⟩ [98]).boundary.length : Int)
      > (((bufReadline ⟨[], [120, 13, 10, 45, 45, 98]⟩).1
          ++ (bufReadline (bufReadline ⟨[], [120, 13, 10, 45, 45, 98]⟩).2).1).length : Int)
        - 4) := by
  decide

/-- C6: request-line parsing fails with bad-request on an empty stripped
line, on a token count other than three, and on a third token without `/`;
on a numeric version it succeeds with the described fields, the minor
version defaulting to 0 without a `.`; `"GET / HTTP/1\r\n"` parses to
version `(1, 0)` while `"GET / GARBAGE\r\n"` and `"GET /\r\n"` fail with
bad-request. -/
theorem claim_C6_request_line (line : Str) (c0 c1 c2 : Str) :
    (pyStrip line = [] → parseReqLine line = .badRequest) ∧
    ((splitOnChar ' ' (pyStrip line)).length ≠ 3 →
      parseReqLine line = .badRequest) ∧
    (splitOnChar ' ' (pyStrip line) = [c0, c1, c2] →
      charIndex c2 '/' = none → parseReqLine line = .badRequest) ∧
    (∀ vi mj, splitOnChar ' ' (pyStrip line) = [c0, c1, c2] →
      charIndex c2 '/' = some vi →
      charIndex (c2.drop (vi + 1)) '.' = none →
      pyInt (c2.drop (vi + 1)) = some mj →
      parseReqLine line = .ok (upperStr c0) (reqPath c1) (reqQuery c1)
        (upperStr (c2.take vi)) (mj, 0)) ∧
    (∀ vi di mj mi, splitOnChar ' ' (pyStrip line) = [c0, c1, c2] →
      charIndex c2 '/' = some vi →
      charIndex (c2.drop (vi + 1)) '.' = some di →
      pyInt ((c2.drop (vi + 1)).take di) = some mj →
      pyInt ((c2.drop (vi + 1)).drop (di + 1)) = some mi →
      parseReqLine line = .ok (upperStr c0) (reqPath c1) (reqQuery c1)
        (upperStr (c2.take vi)) (mj, mi)) ∧
    parseReqLine ("GET / HTTP/1\r\n".toList)
      = .ok ("GET".toList) ("/".toList) none ("HTTP".toList) (1, 0) ∧
    parseReqLine ("GET / GARBAGE\r\n".toList) = .badRequest ∧
    parseReqLine ("GET /\r\n".toList) = .badRequest := by
  have hsp3 : splitOnChar ' ' (pyStrip line) = [c0, c1, c2] →
      pyStrip line ≠ [] := by
    intro hsp h0
    rw [h0] at hsp
    exact absurd (congrArg List.length hsp) (by simp [splitOnChar])
  refine ⟨?_, ?_, ?_, ?_, ?_, by decide, by decide, by decide⟩
  · intro h
    unfold parseReqLine
    rw [if_pos h]
  · intro h
    unfold parseReqLine
    by_cases hs : pyStrip line = []
    · rw [if_pos hs]
    · rw [if_neg hs]
      rcases hsp : splitOnChar ' ' (pyStrip line) with
        _ | ⟨d0, _ | ⟨d1, _ | ⟨d2, _ | ⟨d3, rest⟩⟩⟩⟩
      · rfl
      · rfl
      · rfl
      · exact absurd (by rw [hsp]; rfl) h
      · rfl
  · intro hsp hvi
    unfold parseReqLine
    rw [if_neg (hsp3 hsp), hsp]
    dsimp only
    rw [hvi]
  · intro vi mj hsp hvi hdot hint
    unfold parseReqLine
    rw [if_neg (hsp3 hsp), hsp]
    dsimp only
    rw [hvi]
    dsimp only
    rw [hdot]
    dsimp only
    rw [hint]
  · intro vi di mj mi hsp hvi hdot hint1 hint2
    unfold parseReqLine
    rw [if_neg (hsp3 hsp), hsp]
    dsimp only
    rw [hvi]
    dsimp only
    rw [hdot]
    dsimp only
    rw [hint1, hint2]

theorem claim_C6_request_line_witness :
    parseReqLine ("put /p?q http/1.2\r\n".toList)
      = .ok ("PUT".toList) ("/p".toList) (some ("q".toList))
          ("HTTP".toList) (1, 2) :=
  (claim_C6_request_line ("put /p?q http/1.2\r\n".toList)
      ("put".toList) ("/p?q".toList) ("http/1.2".toList)).2.2.2.2.1
    4 1 1 2 (by decide) (by decide) (by decide) (by decide) (by decide)

/-- C7: after the request callback, the connection loop closes the
connection when the request's HTTP version is below `(1, 1)`; otherwise it
continues exactly when the first `Connection` header (matched
case-insensitively) is absent or equals `keep-alive` case-insensitively,
closing for every other value — including `close`. -/
theorem claim_C7_keep_alive (v : Int × Int) (hs : List HttpHeaderKV)
    (s : Str) :
    (versionLt v (1, 1) = true → keepAlive v hs = false) ∧
    (versionLt v (1, 1) = false →
      get_first_kv hs ("Connection".toList) = none → keepAlive v hs = true) ∧
    (versionLt v (1, 1) = false →
      get_first_kv hs ("Connection".toList) = some s →
      (keepAlive v hs = true ↔ upperStr s = ("KEEP-ALIVE".toList))) ∧
    keepAlive (1, 1) [⟨"Connection".toList, "close".toList⟩] = false ∧
    keepAlive (1, 1) [⟨"connection".toList, "Keep-Alive".toList⟩] = true ∧
    keepAlive (1, 0) [] = false ∧
    keepAlive (1, 1) [] = true := by
  refine ⟨?_, ?_, ?_, by decide, by decide, by decide, by decide⟩
  · intro h
    unfold keepAlive
    rw [if_pos h]
  · intro h hc
    unfold keepAlive
    rw [if_neg (by rw [h]; exact Bool.false_ne_true), hc]
  · intro h hc
    unfold keepAlive
    rw [if_neg (by rw [h]; exact Bool.false_ne_true), hc]
    exact decide_eq_true_iff

theorem claim_C7_keep_alive_witness :
    keepAlive (2, 0) [⟨"CONNECTION".toList, "keep-ALIVE".toList⟩] = true :=
  ((claim_C7_keep_alive (2, 0) [⟨"CONNECTION".toList, "keep-ALIVE".toList⟩]
      ("keep-ALIVE".toList)).2.2.1 (by decide) (by decide)).mpr (by decide)

/-- C9: a malformed header line is skipped, not fatal: the headers produced
by the parse loop are exactly the well-formed lines (those `parse_http_header`
accepts) among the lines before the terminator, in wire order; the stripped
line `" : Test"` has its first `:` at index 0 and is rejected; in a concrete
run the malformed line is skipped and parsing continues to the terminator. -/
theorem claim_C9_header_errors_skipped (lines : List Str) :
    parseHeaderLines lines =
      (lines.takeWhile (fun l => !(isEndLine l))).filterMap parse_http_header ∧
    parse_http_header (" : Test".toList) = none ∧
    parseHeaderLines
        [("Host: example.com".toList), (" : Test".toList), ("X-A: 1".toList),
         ("\r\n".toList), ("Y: 2".toList)]
      = [⟨"Host".toList, "example.com".toList⟩, ⟨"X-A".toList, "1".toList⟩] := by
  refine ⟨?_, by decide, by decide⟩
  induction lines with
  | nil => rfl
  | cons l rest ih =>
      unfold parseHeaderLines
      by_cases he : isEndLine l
      · rw [if_pos he]
        simp [List.takeWhile_cons, he]
      · rw [if_neg he]
        cases hp : parse_http_header l <;>
          simp [List.takeWhile_cons, he, List.filterMap_cons, hp, ih]

theorem splitOnChar_not_mem (sep : Char) :
    ∀ (str : Str) (s : Str), s ∈ splitOnChar sep str → sep ∉ s := by
  intro str
  induction str with
  | nil =>
      intro s hs
      simp [splitOnChar] at hs
      rw [hs]
      simp
  | cons c rest ih =>
      intro s hs
      unfold splitOnChar at hs
      by_cases hc : c = sep
      · rw [if_pos hc] at hs
        rcases List.mem_cons.mp hs with h | h
        · rw [h]
          simp
        · exact ih s h
      · rw [if_neg hc] at hs
        rcases hr : splitOnChar sep rest with _ | ⟨t, ts⟩
        · rw [hr] at hs
          simp only [List.mem_singleton] at hs
          rw [hs]
          intro hmem
          rcases List.mem_singleton.mp hmem with h'
          exact hc h'.symm
        · rw [hr] at hs
          rcases List.mem_cons.mp hs with h | h
          · rw [h]
            intro hmem
            rcases List.mem_cons.mp hmem with h' | h'
            · exact hc h'.symm
            · exact ih t (by rw [hr]; exact List.mem_cons_self _ _) h'
          · exact ih s (by rw [hr]; exact List.mem_cons_of_mem _ h)

theorem procSeg_good (p : List Str) (s : Str)
    (hp : ∀ t ∈ p, goodSeg t) (hs : ('/') ∉ s) :
    ∀ t ∈ procSeg p s, goodSeg t := by
  intro t ht
  unfold procSeg at ht
  by_cases h : s = ['.', '.']
  · rw [if_pos h] at ht
    exact hp t (List.dropLast_subset _ ht)
  · rw [if_neg h] at ht
    rcases List.mem_append.mp ht with h' | h'
    · exact hp t h'
    · rw [List.mem_singleton.mp h']
      exact ⟨h, hs⟩

theorem foldl_procSeg_good (segs : List Str) :
    ∀ (p : List Str), (∀ t ∈ p, goodSeg t) → (∀ s ∈ segs, ('/') ∉ s) →
    ∀ t ∈ segs.foldl procSeg p, goodSeg t := by
  induction segs with
  | nil =>
      intro p hp _ t ht
      exact hp t ht
  | cons s ss ih =>
      intro p hp hf t ht
      rw [List.foldl_cons] at ht
      exact ih (procSeg p s)
        (procSeg_good p s hp (hf s (List.mem_cons_self _ _)))
        (fun u hu => hf u (List.mem_cons_of_mem _ hu)) t ht

theorem get_child_good (res : StaticRootResource) (key : Str)
    (h : ∀ t ∈ res.path, goodSeg t) :
    ∀ t ∈ (get_child res key).path, goodSeg t := by
  intro t ht
  exact foldl_procSeg_good _ res.path h
    (fun s hs => splitOnChar_not_mem '/' (unquoteChars key) s hs) t ht

theorem foldl_trvStep_good (segs : List Str) :
    ∀ (res : StaticRootResource), (∀ t ∈ res.path, goodSeg t) →
    ∀ t ∈ (segs.foldl trvStep res).path, goodSeg t := by
  induction segs with
  | nil =>
      intro res h t ht
      exact h t ht
  | cons s ss ih =>
      intro res h t ht
      rw [List.foldl_cons] at ht
      refine ih (trvStep res s) ?_ t ht
      unfold trvStep
      by_cases hl : s.length > 0
      · rw [if_pos hl]
        exact get_child_good res s h
      · rw [if_neg hl]
        exact h

theorem traverse_good (res : StaticRootResource) (p : Str)
    (h : ∀ t ∈ res.path, goodSeg t) :
    ∀ t ∈ (traverse res p).path, goodSeg t := by
  unfold traverse
  exact foldl_trvStep_good _ res h

theorem foldl_trvStep_root (segs : List Str) :
    ∀ (res : StaticRootResource), (segs.foldl trvStep res).root = res.root := by
  induction segs with
  | nil =>
      intro res
      rfl
  | cons s ss ih =>
      intro res
      rw [List.foldl_cons, ih]
      unfold trvStep
      by_cases hl : s.length > 0
      · rw [if_pos hl]
        rfl
      · rw [if_neg hl]

theorem traverse_root (res : StaticRootResource) (p : Str) :
    (traverse res p).root = res.root := by
  unfold traverse
  exact foldl_trvStep_root _ res

theorem osJoinOne_root (a b : Str) (hb : ('/') ∉ b) :
    ∃ rest, osJoinOne a b = a ++ rest := by
  unfold osJoinOne
  have hb' : b.head? ≠ some '/' := by
    intro h
    cases b with
    | nil => simp at h
    | cons x xs =>
        simp only [List.head?_cons, Option.some_inj] at h
        exact hb (by rw [h]; exact List.mem_cons_self _ _)
  rw [if_neg hb']
  by_cases ha : a = []
  · rw [if_pos ha, ha]
    exact ⟨b, rfl⟩
  · rw [if_neg ha]
    by_cases hl : a.getLast? = some '/'
    · rw [if_pos hl]
      exact ⟨b, rfl⟩
    · rw [if_neg hl]
      exact ⟨'/' :: b, rfl⟩

theorem foldl_osJoinOne_root (segs : List Str) :
    ∀ (a : Str), (∀ s ∈ segs, ('/') ∉ s) →
    ∃ rest, segs.foldl osJoinOne a = a ++ rest := by
  induction segs with
  | nil =>
      intro a _
      exact ⟨[], (List.append_nil a).symm⟩
  | cons s ss ih =>
      intro a hf
      obtain ⟨r1, h1⟩ := osJoinOne_root a s (hf s (List.mem_cons_self _ _))
      obtain ⟨r2, h2⟩ := ih (osJoinOne a s)
        (fun u hu => hf u (List.mem_cons_of_mem _ hu))
      exact ⟨r1 ++ r2, by rw [List.foldl_cons, h2, h1, List.append_assoc]⟩

/-- C3: traversal is confined to the root: every stored path segment after
`traverse` is percent-decoded, `/`-free and never `..` (a decoded `..` pops
and is a no-op on an empty list), the built path always extends the root,
and the spec's example resolves to `"local_root/dangerous/path"`. -/
theorem claim_C3_path_traversal_safe (root : Str) (p : Str) :
    (∀ t ∈ (traverse ⟨root, []⟩ p).path, t ≠ ['.', '.'] ∧ ('/') ∉ t) ∧
    (∃ rest, buildRealPath (traverse ⟨root, []⟩ p) = root ++ rest) ∧
    buildRealPath (traverse ⟨"local_root".toList, []⟩
        ("/some/%2e%2e%2f%2e%2e/dangerous/path".toList))
      = ("local_root/dangerous/path".toList) := by
  refine ⟨?_, ?_, by decide⟩
  · exact traverse_good ⟨root, []⟩ p (by intro t ht; simp at ht)
  · obtain ⟨rest, hr⟩ := foldl_osJoinOne_root (traverse ⟨root, []⟩ p).path
      (traverse ⟨root, []⟩ p).root
      (fun s hs => (traverse_good ⟨root, []⟩ p (by intro t ht; simp at ht) s hs).2)
    refine ⟨rest, ?_⟩
    unfold buildRealPath
    rw [hr, traverse_root]

theorem claim_C3_path_traversal_safe_witness :
    ("b".toList ≠ ['.', '.'] ∧ ('/') ∉ ("b".toList)) :=
  (claim_C3_path_traversal_safe ("r".toList) ("/a/%2e%2e/b".toList)).1
    ("b".toList) (by decide)

end Pyx
